import Mathlib

/-!
Shallow embedding of the validator-management core of a sharded blockchain
node (sources: `src/types/accounts.rs`, `src/validator/validator_manager.rs`,
`src/network/control.rs`), together with theorems settling the specification
claims about it.

Machine integers are modelled as `Nat`/`Int` with explicit wrapping where the
source casts; cryptographic cells are modelled by their representation hash;
dictionaries (`HashmapE`) are modelled as canonical sorted association lists,
mirroring the canonical serialized form of TON dictionaries (equal content
gives byte-identical serialization).
-/

namespace TonNode

/-- A TON cell, abstracted to its representation hash (`repr_hash`). -/
structure Cell where
  hash : Nat
deriving DecidableEq, Repr

/-- Account identifier (`AccountId`, a 256-bit slice), abstracted to `Nat`. -/
abbrev AccountIdM := Nat

/-- Lookup in a plain association map (Rust `HashMap`/`HashmapAug` get). -/
def alistLookup {κ α : Type} [DecidableEq κ] (m : List (κ × α)) (k : κ) : Option α :=
  match m with
  | [] => none
  | (k', v) :: rest => if k = k' then some v else alistLookup rest k

/-- Insert or replace in a plain association map (Rust `HashMap` insert). -/
def alistInsert {κ α : Type} [DecidableEq κ] (m : List (κ × α)) (k : κ) (v : α) :
    List (κ × α) :=
  match m with
  | [] => [(k, v)]
  | (k', v') :: rest => if k = k' then (k, v) :: rest else (k', v') :: alistInsert rest k v

/-- Remove from a plain association map (Rust `HashMap` remove). -/
def alistRemove {κ α : Type} [DecidableEq κ] (m : List (κ × α)) (k : κ) : List (κ × α) :=
  match m with
  | [] => []
  | (k', v') :: rest => if k = k' then rest else (k', v') :: alistRemove rest k

/-- Keys of an association map. -/
def alistKeys {κ α : Type} (m : List (κ × α)) : List κ :=
  m.map Prod.fst

theorem alistLookup_insert_self {κ α : Type} [DecidableEq κ] (m : List (κ × α)) (k : κ)
    (v : α) : alistLookup (alistInsert m k v) k = some v := by
  induction m with
  | nil => simp [alistInsert, alistLookup]
  | cons e rest ih =>
    obtain ⟨k', v'⟩ := e
    by_cases h : k = k'
    · simp [alistInsert, alistLookup, h]
    · simp [alistInsert, alistLookup, h, ih]

/-- Error taxonomy raised by the public-library operations in
`ShardAccountStuff` (the source uses `fail!` with message strings; each
constructor corresponds to one `fail!` site in `accounts.rs`). -/
inductive LibError where
  /-- add: `key != library.repr_hash()` -/
  | hashMismatch
  /-- add: existing LibDescr record root hash differs from the new root hash -/
  | rootMismatch
  /-- add: this account is already listed as a publisher -/
  | alreadyPublisher
  /-- remove: `libraries.get(&key)` returned `None` -/
  | notPublished
  /-- remove: stored root hash differs from the key -/
  | corruptDescriptor
  /-- remove: this account is not listed as a publisher -/
  | notPublisher
deriving DecidableEq, Repr

/-- `LibDescr`: a library root cell plus the set of publishing accounts
(`publishers`, a 256-bit-keyed dictionary, modelled as a sorted list). -/
structure LibDescr where
  lib : Cell
  publishers : List AccountIdM
deriving DecidableEq, Repr

/-- The global public-library index `Libraries` (`HashmapE 256 LibDescr`),
modelled as an association list sorted strictly by key. -/
abbrev Libraries := List (Nat × LibDescr)

/-- Dictionary lookup (`Libraries::get`). -/
def libGet (libs : Libraries) (k : Nat) : Option LibDescr :=
  match libs with
  | [] => none
  | (k', v) :: rest => if k = k' then some v else libGet rest k

/-- Dictionary store (`Libraries::set`), keeping the sorted canonical form. -/
def libSet (libs : Libraries) (k : Nat) (v : LibDescr) : Libraries :=
  match libs with
  | [] => [(k, v)]
  | (k', v') :: rest =>
    if k < k' then (k, v) :: (k', v') :: rest
    else if k = k' then (k, v) :: rest
    else (k', v') :: libSet rest k v

/-- Dictionary removal (`Libraries::remove`). -/
def libRemove (libs : Libraries) (k : Nat) : Libraries :=
  match libs with
  | [] => []
  | (k', v') :: rest => if k = k' then rest else (k', v') :: libRemove rest k

/-- Sorted insertion into a publisher set (`publishers_mut().set(addr, ())`). -/
def pubInsert (a : Nat) (l : List Nat) : List Nat :=
  match l with
  | [] => [a]
  | b :: t => if a ≤ b then a :: b :: t else b :: pubInsert a t

/-- Well-formedness of a library index: the canonical dictionary order on
keys, and for every entry a canonically ordered, non-empty publisher set.
(TL-B `shared_lib_descr` stores publishers as a non-empty `Hashmap 256 True`,
so a deserializable index never carries an empty publisher set.) -/
structure LibsWf (libs : Libraries) : Prop where
  keys_sorted : List.Sorted (· < ·) (libs.map Prod.fst)
  pubs_sorted : ∀ e ∈ libs, List.Sorted (· < ·) e.2.publishers
  pubs_ne : ∀ e ∈ libs, e.2.publishers ≠ []

/-- `ShardAccountStuff::add_public_library` (accounts.rs:134-166): checks
`key == library.repr_hash()`; if an entry exists, checks the stored root and
that this account is not already a publisher, then adds it; otherwise creates
`LibDescr::from_lib_data_by_publisher(library, account_addr)`; stores. -/
def add_public_library (account_addr : AccountIdM) (key : Nat) (library : Cell)
    (libraries : Libraries) : Except LibError Libraries :=
  if key ≠ library.hash then
    .error .hashMismatch
  else
    match libGet libraries key with
    | some old_lib_descr =>
      if old_lib_descr.lib.hash ≠ library.hash then
        .error .rootMismatch
      else if account_addr ∈ old_lib_descr.publishers then
        .error .alreadyPublisher
      else
        .ok (libSet libraries key
          { old_lib_descr with publishers := pubInsert account_addr old_lib_descr.publishers })
    | none =>
      .ok (libSet libraries key ⟨library, [account_addr]⟩)

/-- `ShardAccountStuff::remove_public_library` (accounts.rs:105-133): fails if
the entry is missing, if the stored root hash differs from the key, or if this
account is not a publisher; otherwise removes the account, erasing the whole
entry when the publisher set becomes empty. -/
def remove_public_library (account_addr : AccountIdM) (key : Nat)
    (libraries : Libraries) : Except LibError Libraries :=
  match libGet libraries key with
  | none => .error .notPublished
  | some lib_descr =>
    if lib_descr.lib.hash ≠ key then
      .error .corruptDescriptor
    else if account_addr ∉ lib_descr.publishers then
      .error .notPublisher
    else
      let pubs := lib_descr.publishers.erase account_addr
      if pubs.isEmpty then
        .ok (libRemove libraries key)
      else
        .ok (libSet libraries key { lib_descr with publishers := pubs })

/-- C1: `add_public_library(k, c, libs)` fails exactly when `k` differs from
the hash of `c`, or the index holds an entry for `k` whose stored root hash
differs from the hash of `c`, or that entry already lists this account as a
publisher; in every other case it succeeds, adding this account to the
existing entry's publisher set, or creating a fresh `LibDescr(c, {account})`
when no entry for `k` exists. -/
theorem add_public_library_spec (acc k : Nat) (c : Cell) (libs : Libraries) :
    ((∃ e, add_public_library acc k c libs = .error e) ↔
      (k ≠ c.hash ∨
        ∃ ld, libGet libs k = some ld ∧ (ld.lib.hash ≠ c.hash ∨ acc ∈ ld.publishers)))
    ∧ (∀ ld, libGet libs k = some ld → k = c.hash → ld.lib.hash = c.hash →
        acc ∉ ld.publishers →
        add_public_library acc k c libs =
          .ok (libSet libs k ⟨ld.lib, pubInsert acc ld.publishers⟩))
    ∧ (libGet libs k = none → k = c.hash →
        add_public_library acc k c libs = .ok (libSet libs k ⟨c, [acc]⟩)) := by
  by_cases hk : k = c.hash
  · subst hk
    cases hg : libGet libs c.hash with
    | none =>
      simp [add_public_library, hg]
    | some ld =>
      by_cases hr : ld.lib.hash = c.hash
      · by_cases hp : acc ∈ ld.publishers
        · simp [add_public_library, hg, hr, hp]
        · simp [add_public_library, hg, hr, hp]
      · simp [add_public_library, hg, hr]
  · simp only [add_public_library, if_pos (by simpa using hk)]
    refine ⟨⟨fun _ => Or.inl hk, fun _ => ⟨.hashMismatch, rfl⟩⟩, ?_, ?_⟩
    · intro ld _ hkc
      exact absurd hkc hk
    · intro _ hkc
      exact absurd hkc hk

/-- Witness for C1 at a concrete input: the index holds library 5 with root
hash 5 published by account 2; account 1 adds it successfully. -/
theorem add_public_library_spec_witness :
    libGet [(5, ⟨⟨5⟩, [2]⟩)] 5 = some ⟨⟨5⟩, [2]⟩ ∧
    add_public_library 1 5 ⟨5⟩ [(5, ⟨⟨5⟩, [2]⟩)] =
      .ok (libSet [(5, ⟨⟨5⟩, [2]⟩)] 5 ⟨⟨5⟩, pubInsert 1 [2]⟩) :=
  ⟨rfl, (add_public_library_spec 1 5 ⟨5⟩ [(5, ⟨⟨5⟩, [2]⟩)]).2.1 ⟨⟨5⟩, [2]⟩ rfl rfl rfl
    (by decide)⟩

/-- C2: `remove_public_library(k, libs)` fails with `NotPublished` when the
index has no entry for `k`, with `CorruptDescriptor` when the stored root's
hash differs from `k`, and with `NotPublisher` when this account is not in the
publisher set; otherwise it removes this account, erasing the whole entry when
the publisher set becomes empty and storing the updated entry otherwise. -/
theorem remove_public_library_spec (acc k : Nat) (libs : Libraries) :
    (libGet libs k = none → remove_public_library acc k libs = .error .notPublished)
    ∧ (∀ ld, libGet libs k = some ld → ld.lib.hash ≠ k →
        remove_public_library acc k libs = .error .corruptDescriptor)
    ∧ (∀ ld, libGet libs k = some ld → ld.lib.hash = k → acc ∉ ld.publishers →
        remove_public_library acc k libs = .error .notPublisher)
    ∧ (∀ ld, libGet libs k = some ld → ld.lib.hash = k → acc ∈ ld.publishers →
        remove_public_library acc k libs =
          .ok (if (ld.publishers.erase acc).isEmpty then libRemove libs k
               else libSet libs k ⟨ld.lib, ld.publishers.erase acc⟩)) := by
  refine ⟨?_, ?_, ?_, ?_⟩
  · intro hg
    simp [remove_public_library, hg]
  · intro ld hg hr
    simp [remove_public_library, hg, hr]
  · intro ld hg hr hp
    simp [remove_public_library, hg, hr, hp]
  · intro ld hg hr hp
    have hr' : ¬ ld.lib.hash ≠ k := not_not_intro hr
    have hp' : ¬ acc ∉ ld.publishers := not_not_intro hp
    simp only [remove_public_library, hg, if_neg hr', if_neg hp']
    split <;> rfl

/-- Witness for C2 at a concrete input: account 1 revokes library 5 from an
entry it shares with account 2, which keeps the entry with publisher 2. -/
theorem remove_public_library_spec_witness :
    libGet [(5, ⟨⟨5⟩, [1, 2]⟩)] 5 = some ⟨⟨5⟩, [1, 2]⟩ ∧
    remove_public_library 1 5 [(5, ⟨⟨5⟩, [1, 2]⟩)] =
      .ok (if (([1, 2].erase 1).isEmpty : Bool) then libRemove [(5, ⟨⟨5⟩, [1, 2]⟩)] 5
           else libSet [(5, ⟨⟨5⟩, [1, 2]⟩)] 5 ⟨⟨5⟩, [1, 2].erase 1⟩) :=
  ⟨rfl, (remove_public_library_spec 1 5 [(5, ⟨⟨5⟩, [1, 2]⟩)]).2.2.2 ⟨⟨5⟩, [1, 2]⟩ rfl rfl
    (by decide)⟩

theorem libGet_libSet_self (libs : Libraries) (k : Nat) (v : LibDescr) :
    libGet (libSet libs k v) k = some v := by
  induction libs with
  | nil => simp [libSet, libGet]
  | cons e rest ih =>
    obtain ⟨k', v'⟩ := e
    by_cases h1 : k < k'
    · simp [libSet, libGet, h1]
    · by_cases h2 : k = k'
      · simp [libSet, libGet, h1, h2]
      · simp [libSet, libGet, h1, h2, ih]

theorem libRemove_libSet_of_not_mem (libs : Libraries) (k : Nat) (v : LibDescr)
    (h : k ∉ libs.map Prod.fst) : libRemove (libSet libs k v) k = libs := by
  induction libs with
  | nil => simp [libSet, libRemove]
  | cons e rest ih =>
    obtain ⟨k', v'⟩ := e
    simp only [List.map_cons, List.mem_cons, not_or] at h
    obtain ⟨hne, hrest⟩ := h
    by_cases h1 : k < k'
    · simp [libSet, libRemove, h1]
    · simp [libSet, libRemove, h1, hne, ih hrest]

theorem libSet_libSet_self (libs : Libraries) (k : Nat) (v v' : LibDescr) :
    libSet (libSet libs k v) k v' = libSet libs k v' := by
  induction libs with
  | nil => simp [libSet]
  | cons e rest ih =>
    obtain ⟨k1, v1⟩ := e
    by_cases h1 : k < k1
    · simp [libSet, h1, lt_irrefl]
    · by_cases h2 : k = k1
      · simp [libSet, h1, h2, lt_irrefl]
      · simp [libSet, h1, h2, ih]

theorem mem_keys_of_libGet (libs : Libraries) (k : Nat) (v : LibDescr)
    (h : libGet libs k = some v) : k ∈ libs.map Prod.fst := by
  induction libs with
  | nil => simp [libGet] at h
  | cons e rest ih =>
    obtain ⟨k', v'⟩ := e
    by_cases hk : k = k'
    · simp [hk]
    · simp only [libGet, if_neg hk] at h
      simp [ih h]

theorem not_mem_keys_of_libGet_none (libs : Libraries) (k : Nat)
    (h : libGet libs k = none) : k ∉ libs.map Prod.fst := by
  induction libs with
  | nil => simp
  | cons e rest ih =>
    obtain ⟨k', v'⟩ := e
    by_cases hk : k = k'
    · simp [libGet, hk] at h
    · simp only [libGet, if_neg hk] at h
      simp [hk, ih h]

theorem pair_mem_of_libGet (libs : Libraries) (k : Nat) (v : LibDescr)
    (h : libGet libs k = some v) : (k, v) ∈ libs := by
  induction libs with
  | nil => simp [libGet] at h
  | cons e rest ih =>
    obtain ⟨k', v'⟩ := e
    by_cases hk : k = k'
    · simp only [libGet, if_pos hk] at h
      obtain rfl := Option.some.inj h
      simp [hk]
    · simp only [libGet, if_neg hk] at h
      simp [ih h]

theorem libSet_of_libGet_self (libs : Libraries) (k : Nat) (v : LibDescr)
    (hs : List.Sorted (· < ·) (libs.map Prod.fst))
    (h : libGet libs k = some v) : libSet libs k v = libs := by
  induction libs with
  | nil => simp [libGet] at h
  | cons e rest ih =>
    obtain ⟨k', v'⟩ := e
    simp only [List.map_cons, List.sorted_cons] at hs
    obtain ⟨hlt, hrest⟩ := hs
    by_cases hk : k = k'
    · simp only [libGet, if_pos hk] at h
      obtain rfl := Option.some.inj h
      simp [libSet, hk, lt_irrefl]
    · simp only [libGet, if_neg hk] at h
      have hmem := mem_keys_of_libGet rest k v h
      have hklt : k' < k := hlt k hmem
      simp [libSet, Nat.not_lt.mpr (Nat.le_of_lt hklt), hk, ih hrest h]

theorem mem_pubInsert_self (a : Nat) (l : List Nat) : a ∈ pubInsert a l := by
  induction l with
  | nil => simp [pubInsert]
  | cons b t ih =>
    by_cases h : a ≤ b
    · simp [pubInsert, h]
    · simp [pubInsert, h, ih]

theorem erase_pubInsert (a : Nat) (l : List Nat) (hs : List.Sorted (· < ·) l)
    (h : a ∉ l) : (pubInsert a l).erase a = l := by
  induction l with
  | nil => simp [pubInsert]
  | cons b t ih =>
    simp only [List.sorted_cons] at hs
    obtain ⟨_, hrest⟩ := hs
    simp only [List.mem_cons, not_or] at h
    obtain ⟨hab, hat⟩ := h
    by_cases hle : a ≤ b
    · simp [pubInsert, hle, List.erase_cons_head]
    · have hba : ¬ (b == a) = true := by simpa using fun e => hab e.symm
      simp [pubInsert, hle, List.erase_cons_tail, hba, ih hrest hat]

/-- C4: a successful `add_public_library(k, c, libs)` immediately followed by
`remove_public_library(k, libs)` by the same account restores the library
index to exactly its pre-add state (the index is a canonical dictionary, so
state equality is byte-identity of the serialized index). `LibsWf` captures
the representable states of the index: canonically ordered keys, and a
canonically ordered, non-empty publisher set per entry. -/
theorem add_remove_roundtrip (acc k : Nat) (c : Cell) (libs libs' : Libraries)
    (hwf : LibsWf libs)
    (hadd : add_public_library acc k c libs = .ok libs') :
    remove_public_library acc k libs' = .ok libs := by
  by_cases hk : k = c.hash
  · subst hk
    cases hg : libGet libs c.hash with
    | none =>
      have hlib : libs' = libSet libs c.hash ⟨c, [acc]⟩ := by
        have := hadd
        simp only [add_public_library, ne_eq, not_true_eq_false, if_false, hg] at this
        exact (Except.ok.inj this).symm
      subst hlib
      have hget' := libGet_libSet_self libs c.hash ⟨c, [acc]⟩
      simp only [remove_public_library, hget', ne_eq, not_true_eq_false, if_false,
        List.mem_singleton, not_false_eq_true, List.erase_cons_head, List.isEmpty_nil,
        if_true, Except.ok.injEq]
      exact libRemove_libSet_of_not_mem libs c.hash _ (not_mem_keys_of_libGet_none libs c.hash hg)
    | some ld =>
      by_cases hr : ld.lib.hash = c.hash
      · by_cases hp : acc ∈ ld.publishers
        · exfalso
          simp [add_public_library, hg, hr, hp] at hadd
        · have hlib : libs' = libSet libs c.hash ⟨ld.lib, pubInsert acc ld.publishers⟩ := by
            have := hadd
            simp only [add_public_library, ne_eq, not_true_eq_false, if_false, hg, hr,
              hp, if_true] at this
            exact (Except.ok.inj this).symm
          subst hlib
          have hpair := pair_mem_of_libGet libs c.hash ld hg
          have hps := hwf.pubs_sorted _ hpair
          have hpn := hwf.pubs_ne _ hpair
          have hget' := libGet_libSet_self libs c.hash ⟨ld.lib, pubInsert acc ld.publishers⟩
          simp only [remove_public_library, hget', ne_eq, hr, not_true_eq_false, if_false,
            mem_pubInsert_self, erase_pubInsert acc ld.publishers hps hp]
          have hemp : ld.publishers.isEmpty = false := by
            cases hq : ld.publishers with
            | nil => exact absurd hq hpn
            | cons x xs => simp
          simp only [hemp, Bool.false_eq_true, if_false, Except.ok.injEq]
          rw [libSet_libSet_self]
          exact libSet_of_libGet_self libs c.hash ld hwf.keys_sorted hg
      · exfalso
        simp [add_public_library, hg, hr] at hadd
  · exfalso
    simp [add_public_library, hk] at hadd

/-- Witness for C4 at a concrete input: account 1 adds library 5 to an index
already publishing it through account 2, then removes it, restoring the
original index. -/
theorem add_remove_roundtrip_witness :
    add_public_library 1 5 ⟨5⟩ [(5, ⟨⟨5⟩, [2]⟩)] = .ok [(5, ⟨⟨5⟩, [1, 2]⟩)] ∧
    remove_public_library 1 5 [(5, ⟨⟨5⟩, [1, 2]⟩)] = .ok [(5, ⟨⟨5⟩, [2]⟩)] :=
  ⟨rfl, add_remove_roundtrip 1 5 ⟨5⟩ [(5, ⟨⟨5⟩, [2]⟩)] [(5, ⟨⟨5⟩, [1, 2]⟩)]
    ⟨by decide, by decide, by decide⟩ rfl⟩

/-! ### ShardAccountStuff transaction chaining (accounts.rs) -/

/-- Deterministic digest used to stand in for cell representation hashes of
serialized values. -/
def natsHash (l : List Nat) : Nat :=
  l.foldl (fun h x => h * 1000003 + x + 1) 7

/-- A transaction, restricted to the fields `add_transaction` reads or
writes: `logical_time`, `prev_trans_hash`, `prev_trans_lt`, `total_fees`,
plus an opaque `payload` standing for all remaining serialized content. -/
structure Transaction where
  logical_time : Nat
  prev_trans_hash : Nat
  prev_trans_lt : Nat
  total_fees : Nat
  payload : Nat
deriving DecidableEq, Repr

/-- `Transaction::serialize()`: the serialized root cell of the transaction;
its representation hash digests every field. -/
def Transaction.serializeCell (t : Transaction) : Cell :=
  ⟨natsHash [t.logical_time, t.prev_trans_hash, t.prev_trans_lt, t.total_fees, t.payload]⟩

/-- `HashUpdate`: the (old, new) account-root hash pair for one block. -/
structure HashUpdate where
  old_hash : Nat
  new_hash : Nat
deriving DecidableEq, Repr

/-- `ShardAccount`: account cell with the identity of its last transaction.
`account_libs` stands for the libraries readable from the account state
(`read_account()?.libraries()`). -/
structure ShardAccount where
  account_cell : Cell
  account_libs : Libraries
  last_trans_hash : Nat
  last_trans_lt : Nat
deriving DecidableEq, Repr

/-- `ShardAccount::default()`: the empty account used when the address is
absent from the shard account map (`unwrap_or_default`). -/
instance : Inhabited ShardAccount :=
  ⟨⟨⟨0⟩, [], 0, 0⟩⟩

/-- The shard account map (`ShardAccounts`). -/
abbrev ShardAccountsM := List (Nat × ShardAccount)

/-- `ShardAccountStuff` (accounts.rs:9-18). The shared `Arc<AtomicU64>`
logical-time counter is abstracted to its current value. The transactions
map holds, per logical time, the serialized transaction root and its total
fees (the `HashmapAug` augmentation). -/
structure ShardAccountStuff where
  account_addr : AccountIdM
  account_root : Cell
  last_trans_hash : Nat
  last_trans_lt : Nat
  lt : Nat
  transactions : List (Nat × Cell × Nat)
  state_update : HashUpdate
  orig_libs : Libraries
deriving DecidableEq, Repr

/-- `ShardAccountStuff::from_shard_state` (accounts.rs:21-41): loads the
account (empty default when absent), snapshots its libraries, and starts the
hash update with `old_hash = new_hash =` the loaded account root hash. -/
def from_shard_state (account_addr : AccountIdM) (accounts : ShardAccountsM)
    (lt : Nat) : ShardAccountStuff :=
  let shard_acc := (alistLookup accounts account_addr).getD default
  { account_addr := account_addr
    account_root := shard_acc.account_cell
    last_trans_hash := shard_acc.last_trans_hash
    last_trans_lt := shard_acc.last_trans_lt
    lt := lt
    transactions := []
    state_update := ⟨shard_acc.account_cell.hash, shard_acc.account_cell.hash⟩
    orig_libs := shard_acc.account_libs }

/-- `ShardAccountStuff::add_transaction` (accounts.rs:68-87). The source
mutates the transaction (threading `prev_trans_hash`/`prev_trans_lt`) and the
account state; the model returns the mutated pair. -/
def add_transaction (s : ShardAccountStuff) (transaction : Transaction)
    (account_root : Cell) : Transaction × ShardAccountStuff :=
  let transaction :=
    { transaction with
      prev_trans_hash := s.last_trans_hash
      prev_trans_lt := s.last_trans_lt }
  let tr_root := transaction.serializeCell
  ( transaction,
    { s with
      account_root := account_root
      state_update := { s.state_update with new_hash := account_root.hash }
      last_trans_hash := tr_root.hash
      last_trans_lt := transaction.logical_time
      transactions :=
        alistInsert s.transactions transaction.logical_time (tr_root, transaction.total_fees) } )

/-- C3: a successful `add_transaction(tx, r)` threads `tx.prev_trans_hash`
and `tx.prev_trans_lt` from the old `last_trans_hash`/`last_trans_lt`,
commits `r` as the account root, recomputes `state_update.new_hash` to the
hash of `r` while `old_hash` is untouched, records the serialized transaction
root under key `tx.logical_time` with the transaction's total fees, and
updates `last_trans_hash`/`last_trans_lt` to the serialized root's hash and
`tx.logical_time`; and `from_shard_state` fixes `old_hash` to the hash of the
loaded account root. -/
theorem add_transaction_spec :
    (∀ (s : ShardAccountStuff) (tx : Transaction) (r : Cell),
      (add_transaction s tx r).1.prev_trans_hash = s.last_trans_hash ∧
      (add_transaction s tx r).1.prev_trans_lt = s.last_trans_lt ∧
      (add_transaction s tx r).2.account_root = r ∧
      (add_transaction s tx r).2.state_update.new_hash = r.hash ∧
      (add_transaction s tx r).2.state_update.old_hash = s.state_update.old_hash ∧
      alistLookup (add_transaction s tx r).2.transactions tx.logical_time =
        some ((add_transaction s tx r).1.serializeCell, tx.total_fees) ∧
      (add_transaction s tx r).2.last_trans_hash = (add_transaction s tx r).1.serializeCell.hash ∧
      (add_transaction s tx r).2.last_trans_lt = tx.logical_time) ∧
    (∀ (addr : AccountIdM) (accounts : ShardAccountsM) (lt : Nat),
      (from_shard_state addr accounts lt).state_update.old_hash =
        (from_shard_state addr accounts lt).account_root.hash ∧
      (from_shard_state addr accounts lt).state_update.new_hash =
        (from_shard_state addr accounts lt).account_root.hash) := by
  refine ⟨fun s tx r => ⟨rfl, rfl, rfl, rfl, rfl, ?_, rfl, rfl⟩, fun addr accounts lt => ⟨rfl, rfl⟩⟩
  exact alistLookup_insert_self s.transactions tx.logical_time _

/-! ### Shard geometry and deterministic session identifiers
(validator_manager.rs) -/

/-- `ShardIdent`: workchain id plus the shard prefix, kept as the list of
prefix bits (most significant first). The `shard` field of the source is the
prefix with the tag bit; see `ShardIdent.prefixWithTag`. -/
structure ShardIdent where
  wc : Int
  path : List Bool
deriving DecidableEq, Repr

/-- The masterchain workchain id is `-1` with the full (empty-prefix) shard. -/
def ShardIdent.masterchain : ShardIdent :=
  ⟨-1, []⟩

def ShardIdent.isMasterchain (s : ShardIdent) : Bool :=
  s.wc = -1

/-- Maximum shard split depth of TON shard idents. -/
def maxSplitDepth : Nat := 60

/-- `ShardIdent::split`: appends a 0 (left) / 1 (right) bit; fails at the
maximum split depth. -/
def ShardIdent.split (s : ShardIdent) : Except String (ShardIdent × ShardIdent) :=
  if maxSplitDepth ≤ s.path.length then
    .error "cannot split shard: maximum split depth reached"
  else
    .ok (⟨s.wc, s.path ++ [false]⟩, ⟨s.wc, s.path ++ [true]⟩)

/-- `ShardIdent::merge`: drops the last prefix bit; fails on a full shard. -/
def ShardIdent.merge (s : ShardIdent) : Except String ShardIdent :=
  if s.path = [] then
    .error "cannot merge full shard"
  else
    .ok ⟨s.wc, s.path.dropLast⟩

/-- Value of the prefix bits read as a binary number. -/
def pathBits (p : List Bool) : Nat :=
  p.foldl (fun acc b => 2 * acc + (if b then 1 else 0)) 0

/-- `ShardIdent::shard_prefix_with_tag`: the 64-bit word carrying the prefix
bits at the top, followed by a single 1 tag bit. -/
def ShardIdent.prefixWithTag (s : ShardIdent) : Nat :=
  pathBits s.path * 2 ^ (64 - s.path.length) + 2 ^ (63 - s.path.length)

/-- Wrap a `Nat` into a signed 64-bit value (`as i64`). -/
def i64wrap (n : Nat) : Int :=
  let m : Nat := n % 2 ^ 64
  if m < 2 ^ 63 then (m : Int) else (m : Int) - 2 ^ 64

/-- `BlockIdExt`: block identifier. -/
structure BlockIdExt where
  shard : ShardIdent
  seq_no : Nat
  root_hash : Nat
  file_hash : Nat
deriving DecidableEq, Repr

/-- `BlockIdExt::default()`. -/
instance : Inhabited BlockIdExt :=
  ⟨⟨⟨0, []⟩, 0, 0, 0⟩⟩

/-- `FutureSplitMerge`: a scheduled split or merge for a shard. -/
inductive FutureSplitMerge where
  | fsmNone
  | fsmSplit (split_utime : Nat) (interval : Nat)
  | fsmMerge (merge_utime : Nat) (interval : Nat)
deriving DecidableEq, Repr

/-- `ShardDescr`, restricted to the fields `update_shards` reads. -/
structure ShardDescr where
  seq_no : Nat
  root_hash : Nat
  file_hash : Nat
  before_split : Bool
  before_merge : Bool
  split_merge_at : FutureSplitMerge
deriving DecidableEq, Repr

/-- A validator descriptor. `node_id_short` stands for
`compute_node_id_short()` (the hash of the public key); `adnl_addr` is the
optional transport address override; `weight` the voting weight. -/
structure ValidatorDescr where
  node_id_short : Nat
  adnl_addr : Option Nat
  weight : Nat
deriving DecidableEq, Repr

/-- A validator set as used for session-id derivation: catchain sequence
number plus the ordered member list (`ValidatorSet::with_cc_seqno(0,0,0,cc,l)`). -/
structure VSet where
  catchain_seqno : Nat
  list : List ValidatorDescr
deriving DecidableEq, Repr

/-- Integer-to-code injection used by the digest below. -/
def intCode (i : Int) : Nat :=
  if 0 ≤ i then 2 * i.toNat else 2 * (-i).toNat + 1

/-- Modelled from the spec: SHA-256 over a canonical serialization
(`UInt256::calc_file_hash`), abstracted to a deterministic computable digest
of the encoded field list. -/
def calcFileHash (l : List Int) : Nat :=
  l.foldl (fun h x => h * 1000003 + intCode x + 1) 11

/-- Canonical boxed encoding of `ton::validator::group::GroupNew`
(field order: workchain, shard, vertical_seqno, last_key_block_seqno,
catchain_seqno, config_hash, members), each member contributing
(public_key_hash, adnl, weight). The leading constant is the boxed tag. -/
def encodeGroupNew (workchain : Int) (shard : Int) (vertical_seqno : Int)
    (last_key_block_seqno : Int) (catchain_seqno : Int) (config_hash : Nat)
    (members : List (Nat × Nat × Nat)) : List Int :=
  [101, workchain, shard, vertical_seqno, last_key_block_seqno, catchain_seqno,
    (config_hash : Int), (members.length : Int)] ++
  members.flatMap (fun m => [(m.1 : Int), (m.2.1 : Int), (m.2.2 : Int)])

/-- `get_validator_set_id_serialize` (validator_manager.rs:36-68): builds the
member list (`adnl` defaulting to the node id), then refuses the legacy
(`new_catchain_ids = false`) encoding — the source hits `unimplemented!` —
and otherwise emits the boxed `GroupNew` encoding. -/
def get_validator_set_id_serialize (shard : ShardIdent) (val_set : VSet)
    (opts_hash : Nat) (key_seqno : Int) (new_catchain_ids : Bool)
    (max_vertical_seqno : Int) : Except String (List Int) :=
  let members := val_set.list.map (fun descr =>
    (descr.node_id_short, descr.adnl_addr.getD descr.node_id_short, descr.weight))
  if ¬ new_catchain_ids then
    .error "Old catchain ids format is not supported"
  else
    .ok (encodeGroupNew shard.wc (i64wrap shard.prefixWithTag) max_vertical_seqno
      key_seqno (val_set.catchain_seqno : Int) opts_hash members)

/-- `get_validator_set_id` (validator_manager.rs:71-88): the digest of the
serialization; `none` models the panic of the unsupported legacy path. -/
def get_validator_set_id (shard : ShardIdent) (val_set : VSet) (opts_hash : Nat)
    (key_seqno : Int) (new_catchain_ids : Bool) (max_vertical_seqno : Int) :
    Option Nat :=
  match get_validator_set_id_serialize shard val_set opts_hash key_seqno
      new_catchain_ids max_vertical_seqno with
  | .ok serialized => some (calcFileHash serialized)
  | .error _ => none

/-- `ConsensusConfig` (config param 29 contents). -/
structure ConsensusConfig where
  consensus_timeout_ms : Nat
  catchain_max_deps : Nat
  round_candidates : Nat
  next_candidate_delay_ms : Nat
  attempt_duration : Nat
  fast_attempts : Nat
  max_block_bytes : Nat
  max_collated_bytes : Nat
  new_catchain_ids : Bool
deriving DecidableEq, Repr

/-- `validator_session::SessionOptions`; durations kept in their source
units (milliseconds, except `round_attempt_duration` in seconds). -/
structure SessionOptions where
  catchain_idle_timeout_ms : Nat
  catchain_max_deps : Nat
  catchain_skip_processed_blocks : Bool
  round_candidates : Nat
  next_candidate_delay_ms : Nat
  round_attempt_duration_s : Nat
  max_round_attempts : Nat
  max_block_size : Nat
  max_collated_data_size : Nat
  new_catchain_ids : Bool
deriving DecidableEq, Repr

/-- `get_session_options` (validator_manager.rs:112-125). -/
def get_session_options (opts : ConsensusConfig) : SessionOptions :=
  { catchain_idle_timeout_ms := opts.consensus_timeout_ms
    catchain_max_deps := opts.catchain_max_deps
    catchain_skip_processed_blocks := false
    round_candidates := opts.round_candidates
    next_candidate_delay_ms := opts.next_candidate_delay_ms
    round_attempt_duration_s := opts.attempt_duration
    max_round_attempts := opts.fast_attempts
    max_block_size := opts.max_block_bytes
    max_collated_data_size := opts.max_collated_bytes
    new_catchain_ids := opts.new_catchain_ids }

/-- `validator_session_options_serialize` (validator_manager.rs:90-105):
canonical boxed `ConfigNew` encoding of the nine option fields in source
order (the leading constant is the boxed tag). -/
def validator_session_options_serialize (opts : SessionOptions) : List Int :=
  [202, (opts.catchain_idle_timeout_ms : Int), (opts.catchain_max_deps : Int),
    (opts.round_candidates : Int), (opts.next_candidate_delay_ms : Int),
    (opts.round_attempt_duration_s : Int), (opts.max_round_attempts : Int),
    (opts.max_block_size : Int), (opts.max_collated_data_size : Int),
    if opts.new_catchain_ids then 1 else 0]

/-- `get_validator_session_options_hash` (validator_manager.rs:107-110). -/
def get_validator_session_options_hash (opts : SessionOptions) : Nat :=
  calcFileHash (validator_session_options_serialize opts)

/-! ### Validator manager state machine (validator_manager.rs) -/

/-- `ValidationStatus` (validator_manager.rs:139-149), totally ordered
`Disabled < Waiting < Countdown < Active`. -/
inductive ValidationStatus where
  | Disabled
  | Waiting
  | Countdown
  | Active
deriving DecidableEq, Repr

/-- Rank of a validation status in the order derived on the source enum. -/
def ValidationStatus.rank : ValidationStatus → Nat
  | .Disabled => 0
  | .Waiting => 1
  | .Countdown => 2
  | .Active => 3

/-- `std::cmp::max` on the derived order. -/
def ValidationStatus.maxStatus (a b : ValidationStatus) : ValidationStatus :=
  if a.rank ≤ b.rank then b else a

/-- `ValidationStatus::allows_validate`. -/
def ValidationStatus.allows_validate : ValidationStatus → Bool
  | .Disabled | .Waiting => false
  | .Countdown | .Active => true

/-- `ValidatorGroupStatus`, ordered
`Created < Countdown < Active < Stopping < Stopped`. Modelled from the spec:
`ValidatorGroup` lives outside the core sources; the spec gives only this
status lattice. The countdown start instant is dropped. -/
inductive VGStatus where
  | Created
  | Countdown
  | Active
  | Stopping
  | Stopped
deriving DecidableEq, Repr

/-- Rank of a group status in the lattice order. -/
def VGStatus.rank : VGStatus → Nat
  | .Created => 0
  | .Countdown => 1
  | .Active => 2
  | .Stopping => 3
  | .Stopped => 4

/-- A `ValidatorGroup`, restricted to what the manager reads: its shard, the
validator list id it references, and its status. Modelled from the spec:
`start_with_status` moves a `Created` group to the given start status, and
`stop` moves a running group to `Stopping` (a group is released only once
`Stopped`). -/
structure ValidatorGroup where
  shard : ShardIdent
  list_id : Nat
  status : VGStatus
deriving DecidableEq, Repr

/-- `ValidatorListStatus` plus the manager's own fields
(`ValidatorManagerImpl`, validator_manager.rs:151-224): the session index,
the known validator lists with the `curr`/`next` markers, and the
validation status. -/
structure ManagerState where
  validator_sessions : List (Nat × ValidatorGroup)
  known_lists : List (Nat × Nat)
  curr : Option Nat
  next : Option Nat
  validation_status : ValidationStatus
deriving DecidableEq, Repr

/-- The engine-visible effects of the manager: the `will_validate` flag, the
persisted last-rotation block, the per-shard validation/collation status
maps, the validator lists registered with the engine, and the activated
list. -/
structure EngineState where
  will_validate : Bool
  last_rotation_block : Option BlockIdExt
  validation_status_map : List (ShardIdent × Nat)
  collation_status_map : List (ShardIdent × Nat)
  validator_lists : List Nat
  active_list : Option Nat
deriving DecidableEq, Repr

/-- `CatchainConfig`, restricted to the lifetimes `update_shards` reads. -/
structure CatchainConfig where
  mc_catchain_lifetime : Nat
  shard_catchain_lifetime : Nat
deriving DecidableEq, Repr

/-- The masterchain extra state (`McStateExtra`) as consumed by
`update_shards`. `curr_list_id`/`next_list_id` stand for
`compute_validator_list_id` over the current/next validator set member list
(`none` when the set is empty); the validator sets themselves are reached
through the environment's subset oracle. -/
structure McExtra where
  curr_list_id : Option Nat
  next_list_id : Option Nat
  nx_cc_updated : Bool
  after_key_block : Bool
  last_key_block_seqno : Option Nat
  consensus_config : Option ConsensusConfig
  catchain_config : Option CatchainConfig
  cc_seqno : Nat
  shards : List (ShardIdent × ShardDescr)
  next_vset_total : Nat
  next_vset_utime_since : Nat

/-- The environment of one `update_shards` call: the masterchain state data
and the responses of the external collaborators. `engine_keys` models
`engine.set_validator_list` (the local key iff this node is in the list);
`subset` models `calc_subset_for_workchain` over the current (`false`) or
next (`true`) validator set; `shard_cc_seqno` models
`shards().calc_shard_cc_seqno`. -/
structure Env where
  custom : Option McExtra
  last_mc_block : BlockIdExt
  gen_time : Nat
  engine_keys : Nat → Option Nat
  check_sync : Bool
  last_fork_seqno : Nat
  processed_master : Bool
  processed_wc : Int
  cur_time : Nat
  subset : Bool → ShardIdent → Nat → List ValidatorDescr
  shard_cc_seqno : ShardIdent → Nat

/-- `rotate_all_shards` (validator_manager.rs:211-213). -/
def rotate_all_shards (extra : McExtra) : Bool :=
  extra.nx_cc_updated

/-- `ValidatorListStatus::get_local_key`: the key stored for `curr`. -/
def ManagerState.get_local_key (m : ManagerState) : Option Nat :=
  match m.curr with
  | none => none
  | some c => alistLookup m.known_lists c

/-- `ValidatorListStatus::actual_or_coming`. -/
def ManagerState.actual_or_coming (m : ManagerState) (list_id : Nat) : Bool :=
  m.curr = some list_id ∨ m.next = some list_id

/-- `find_us` (validator_manager.rs:252-266): the local key when its node id
appears among the given validators. -/
def findUs (m : ManagerState) (validators : List ValidatorDescr) : Option Nat :=
  match m.get_local_key with
  | none => none
  | some lk => if validators.any (fun v => v.node_id_short = lk) then some lk else none

/-- `update_single_validator_list` (validator_manager.rs:268-304): `None`
when no list id can be computed; the already-known id without consulting the
engine; otherwise ask the engine, record the local key when one is
returned. -/
def updateSingleList (m : ManagerState) (e : EngineState) (env : Env)
    (list_id : Option Nat) : Option Nat × ManagerState × EngineState :=
  match list_id with
  | none => (none, m, e)
  | some l =>
    if (alistLookup m.known_lists l).isSome then
      (some l, m, e)
    else
      let e := { e with validator_lists :=
        if l ∈ e.validator_lists then e.validator_lists else l :: e.validator_lists }
      match env.engine_keys l with
      | some key =>
        (some l, { m with known_lists := alistInsert m.known_lists l key }, e)
      | none => (none, m, e)

/-- `update_validator_lists` (validator_manager.rs:306-321): refresh `curr`
and `next`, activate the current list, and report whether either side
yielded a local key. -/
def updateValidatorLists (m : ManagerState) (e : EngineState) (env : Env) :
    Bool × ManagerState × EngineState :=
  match env.custom with
  | none => (false, m, e)
  | some extra =>
    let r1 := updateSingleList m e env extra.curr_list_id
    let m := { r1.2.1 with curr := r1.1 }
    let e :=
      match r1.1 with
      | some id => { r1.2.2 with active_list := some id }
      | none => r1.2.2
    let r2 := updateSingleList m e env extra.next_list_id
    let m := { r2.2.1 with next := r2.1 }
    (m.curr.isSome || m.next.isSome, m, r2.2.2)

/-- One step of `stop_and_remove_sessions` (validator_manager.rs:346-375):
a missing group is only logged; `Stopping` is left alone; `Stopped` is
dropped from the index and from the engine status maps; any other status
gets a stop request (modelled from the spec: `stop` moves the group to
`Stopping`; stop errors are not modelled). -/
def stopRemoveStep (p : ManagerState × EngineState) (id : Nat) :
    ManagerState × EngineState :=
  let m := p.1
  let e := p.2
  match alistLookup m.validator_sessions id with
  | none => (m, e)
  | some g =>
    match g.status with
    | .Stopping => (m, e)
    | .Stopped =>
      ({ m with validator_sessions := alistRemove m.validator_sessions id },
       { e with
         validation_status_map := alistRemove e.validation_status_map g.shard
         collation_status_map := alistRemove e.collation_status_map g.shard })
    | _ =>
      ({ m with validator_sessions :=
          alistInsert m.validator_sessions id { g with status := .Stopping } }, e)

/-- `stop_and_remove_sessions` over a set of session ids. -/
def stopAndRemoveSessions (m : ManagerState) (e : EngineState) (ids : List Nat) :
    ManagerState × EngineState :=
  ids.foldl stopRemoveStep (m, e)

/-- `disable_validation` (validator_manager.rs:420-430). -/
def disableValidation (m : ManagerState) (e : EngineState) :
    ManagerState × EngineState :=
  let m := { m with validation_status := .Disabled }
  let p := stopAndRemoveSessions m e (alistKeys m.validator_sessions)
  (p.1, { p.2 with will_validate := false, last_rotation_block := none })

/-- `enable_validation` (validator_manager.rs:432-436). -/
def enableValidation (m : ManagerState) (e : EngineState) :
    ManagerState × EngineState :=
  ({ m with validation_status := m.validation_status.maxStatus .Waiting },
   { e with will_validate := true })

/-- `update_validation_status` (validator_manager.rs:395-418): `Waiting`
advances to `Countdown` on sync + (rotation or block 0) + past-hardfork;
`Countdown` advances to `Active` when some session is `Active`; `Disabled`
and `Active` stay. -/
def updateValidationStatus (m : ManagerState) (env : Env) (extra : McExtra) :
    ManagerState :=
  match m.validation_status with
  | .Waiting =>
    if env.check_sync
        && (rotate_all_shards extra || env.last_mc_block.seq_no = 0)
        && decide (env.last_fork_seqno ≤ env.last_mc_block.seq_no) then
      { m with validation_status := .Countdown }
    else m
  | .Countdown =>
    if m.validator_sessions.any (fun p => p.2.status = .Active) then
      { m with validation_status := .Active }
    else m
  | .Disabled | .Active => m

/-- The `new_shards` map: shard ident to previous blocks. -/
abbrev NewShards := List (ShardIdent × List BlockIdExt)

/-- `BlockIdExt::with_params` over a shard descriptor (the shard top block). -/
def topBlock (ident : ShardIdent) (descr : ShardDescr) : BlockIdExt :=
  ⟨ident, descr.seq_no, descr.root_hash, descr.file_hash⟩

/-- `HashSet` insert, keeping first-insertion order. -/
def insertNew (x : ShardIdent) (s : List ShardIdent) : List ShardIdent :=
  if x ∈ s then s else s ++ [x]

/-- The body of the `iterate_shards_for_workchain` closure
(validator_manager.rs:573-647) for one shard descriptor: extends
`new_shards` according to `before_split`/`before_merge` (shard-arithmetic
errors skip the shard; the merge branch can propagate a split error of the
parent), and `future_shards` according to `split_merge_at` with the
60-second horizon. -/
def newShardsPart (ns : NewShards) (ident : ShardIdent) (descr : ShardDescr) :
    Except String NewShards :=
  let top_block := topBlock ident descr
  if descr.before_split then
    match ident.split with
    | .error _ => .ok ns
    | .ok (l, r) => .ok (alistInsert (alistInsert ns l [top_block]) r [top_block])
  else if descr.before_merge then
    match ident.merge with
    | .error _ => .ok ns
    | .ok p =>
      let prev_blocks := (alistLookup ns p).getD [default, default]
      match p.split with
      | .error e => .error e
      | .ok lr =>
        .ok (alistInsert ns p (prev_blocks.set (if lr.2 = ident then 1 else 0) top_block))
  else
    .ok (alistInsert ns ident [top_block])

def futurePart (cur_time : Nat) (ident : ShardIdent) (descr : ShardDescr)
    (fs : List ShardIdent) : List ShardIdent :=
  match descr.split_merge_at with
  | .fsmNone => insertNew ident fs
  | .fsmSplit t _ =>
    if t < cur_time + 60 then
      match ident.split with
      | .ok (l, r) => insertNew r (insertNew l fs)
      | .error _ => fs
    else insertNew ident fs
  | .fsmMerge t _ =>
    if t < cur_time + 60 then
      match ident.merge with
      | .ok p => insertNew p fs
      | .error _ => fs
    else insertNew ident fs

def processShard (cur_time : Nat) (acc : NewShards × List ShardIdent)
    (ident : ShardIdent) (descr : ShardDescr) :
    Except String (NewShards × List ShardIdent) :=
  match newShardsPart acc.1 ident descr with
  | .error e => .error e
  | .ok new_shards => .ok (new_shards, futurePart cur_time ident descr acc.2)

/-- The shards of the processed workchain, in iteration order. -/
def shardsForWc (env : Env) (extra : McExtra) : List (ShardIdent × ShardDescr) :=
  extra.shards.filter (fun p => p.1.wc = env.processed_wc)

/-- Steps 5 of `update_shards`: the "now" and "soon" shard sets. The
masterchain branch maps the master shard to the last masterchain block;
otherwise the workchain's shards are iterated. -/
def collectShards (env : Env) (extra : McExtra) :
    Except String (NewShards × List ShardIdent) :=
  if env.processed_master then
    .ok ([(ShardIdent.masterchain, [env.last_mc_block])], [ShardIdent.masterchain])
  else
    (shardsForWc env extra).foldlM
      (fun acc p => processShard env.cur_time acc p.1 p.2) ([], [])

/-- `start_sessions` (validator_manager.rs:438-537): for each new shard,
compute the catchain seqno and the validator subset; when this node is in
the subset derive the session id, drop it from the GC set, create the group
if absent, and start it when still `Created` (with `Countdown` start status
iff the manager is in `Countdown`; a group at `Stopping` or beyond is only
logged). Returns the manager, the GC set, and the started session ids. -/
def startSessionsStep (env : Env) (extra : McExtra) (validator_list_id : Nat)
    (group_start_status : VGStatus) (keyblock_seqno : Nat) (opts_hash : Nat)
    (st : ManagerState × List Nat × List Nat) (p : ShardIdent × List BlockIdExt) :
    ManagerState × List Nat × List Nat :=
  let m := st.1
  let gc := st.2.1
  let started := st.2.2
  let ident := p.1
  let cc_seqno_delta :=
    if ident.isMasterchain then extra.cc_seqno else env.shard_cc_seqno ident
  let subset := env.subset false ident cc_seqno_delta
  match findUs m subset with
  | none => (m, gc, started)
  | some _local_id =>
    let vsubset : VSet := ⟨cc_seqno_delta, subset⟩
    let session_id :=
      (get_validator_set_id ident vsubset opts_hash (keyblock_seqno : Int) true 0).getD 0
    let gc := gc.erase session_id
    match alistLookup m.validator_sessions session_id with
    | some g =>
      if g.status = .Created then
        ({ m with validator_sessions :=
            alistInsert m.validator_sessions session_id { g with status := group_start_status } },
         gc, started ++ [session_id])
      else
        (m, gc, started)
    | none =>
      let g : ValidatorGroup := ⟨ident, validator_list_id, .Created⟩
      let m := { m with validator_sessions := alistInsert m.validator_sessions session_id g }
      ({ m with validator_sessions :=
          alistInsert m.validator_sessions session_id { g with status := group_start_status } },
       gc, started ++ [session_id])

/-- `start_sessions`, folded over `new_shards` (no-op when no current list). -/
def startSessions (m : ManagerState) (env : Env) (extra : McExtra)
    (new_shards : NewShards) (keyblock_seqno : Nat) (opts_hash : Nat)
    (_catchain_config : CatchainConfig) (gc : List Nat) :
    ManagerState × List Nat × List Nat :=
  match m.curr with
  | none => (m, gc, [])
  | some validator_list_id =>
    let group_start_status : VGStatus :=
      if m.validation_status = .Countdown then .Countdown else .Active
    new_shards.foldl
      (startSessionsStep env extra validator_list_id group_start_status keyblock_seqno opts_hash)
      (m, gc, [])

/-- Step 7 of `update_shards` (validator_manager.rs:660-721): for each future
shard choose current or next validator set (next iff a validator change
falls within the next catchain lifetime window), compute the subset with
`cc_seqno_from_state + 1`; if this node is in it derive the session id
(over a `ValidatorSet` with catchain seqno literally 1), drop it from the GC
set, and create — but do not start — a group when none exists and the chosen
set has a computable list id. -/
def futureSessionStep (env : Env) (extra : McExtra) (mc_now : Nat)
    (catchain_config : CatchainConfig) (keyblock_seqno : Nat) (opts_hash : Nat)
    (st : ManagerState × List Nat) (ident : ShardIdent) : ManagerState × List Nat :=
  let m := st.1
  let gc := st.2
  let ccpair :=
    if ident.isMasterchain then (extra.cc_seqno, catchain_config.mc_catchain_lifetime)
    else (env.shard_cc_seqno ident, catchain_config.shard_catchain_lifetime)
  let cc_seqno_from_state := ccpair.1
  let cc_lifetime := ccpair.2
  let possible_validator_change := 0 < extra.next_vset_total
  let near_validator_change := possible_validator_change ∧
    extra.next_vset_utime_since ≤ (mc_now / cc_lifetime + 1) * cc_lifetime
  let use_next : Bool := decide near_validator_change
  let next_subset := env.subset use_next ident (cc_seqno_from_state + 1)
  match findUs m next_subset with
  | none => (m, gc)
  | some _local_id =>
    let vnext_subset : VSet := ⟨1, next_subset⟩
    let session_id :=
      (get_validator_set_id ident vnext_subset opts_hash (keyblock_seqno : Int) true 0).getD 0
    let gc := gc.erase session_id
    if (alistLookup m.validator_sessions session_id).isSome then
      (m, gc)
    else
      match (if use_next then extra.next_list_id else extra.curr_list_id) with
      | none => (m, gc)
      | some vnext_list_id =>
        ({ m with validator_sessions :=
            alistInsert m.validator_sessions session_id ⟨ident, vnext_list_id, .Created⟩ },
         gc)

/-- `garbage_collect_lists` (validator_manager.rs:323-344): every known list
not referenced by a surviving session and not `curr`/`next` is removed from
the status and from the engine. -/
def gcListsStep (p : ManagerState × EngineState) (id : Nat) :
    ManagerState × EngineState :=
  let m := p.1
  let e := p.2
  if m.actual_or_coming id then (m, e)
  else
    ({ m with known_lists := alistRemove m.known_lists id },
     { e with validator_lists := e.validator_lists.erase id })

/-- `garbage_collect_lists`, folded over the unreferenced known hashes. -/
def garbageCollectLists (m : ManagerState) (e : EngineState) :
    ManagerState × EngineState :=
  let lists_gc := (alistKeys m.known_lists).filter
    (fun id => ¬ m.validator_sessions.any (fun s => s.2.list_id = id))
  lists_gc.foldl gcListsStep (m, e)

/-- The outcome of one `update_shards` call: final manager and engine
states, the session ids started in this call, and the error returned to the
control loop (if any; partial state mutations persist on error, matching
`&mut self`). -/
structure USResult where
  mgr : ManagerState
  eng : EngineState
  started : List Nat
  err : Option String
deriving Repr

/-- `update_shards` (validator_manager.rs:539-733), sequencing: refresh
validator lists (disable and return when neither side yields a local key),
read the extra state, key-block seqno, session options (config param 29) and
catchain config, enable validation, advance the validation status, collect
the "now"/"soon" shard sets, start sessions when validation is allowed,
prepare future sessions, persist the rotation block on `nx_cc_updated`, stop
and remove unreferenced sessions, and garbage-collect lists. -/
def updateShards (m : ManagerState) (e : EngineState) (env : Env) : USResult :=
  let r := updateValidatorLists m e env
  let m := r.2.1
  let e := r.2.2
  if r.1 = false then
    let p := disableValidation m e
    ⟨p.1, p.2, [], none⟩
  else
    match env.custom with
    | none => ⟨m, e, [], some "masterchain state must contain extra info"⟩
    | some extra =>
      match (if extra.after_key_block then some env.last_mc_block.seq_no
             else extra.last_key_block_seqno) with
      | none => ⟨m, e, [], some "masterchain state must contain info about previous key block"⟩
      | some keyblock_seqno =>
        let mc_now := env.gen_time
        match extra.consensus_config with
        | none => ⟨m, e, [], some "no CatchainConfig in config_params"⟩
        | some consensus_config =>
          let session_options := get_session_options consensus_config
          let opts_hash := get_validator_session_options_hash session_options
          match extra.catchain_config with
          | none => ⟨m, e, [], some "no catchain config in config_params"⟩
          | some catchain_config =>
            let p := enableValidation m e
            let m := p.1
            let e := p.2
            let m := updateValidationStatus m env extra
            let gc := alistKeys m.validator_sessions
            match collectShards env extra with
            | .error msg => ⟨m, e, [], some msg⟩
            | .ok shards =>
              let new_shards := shards.1
              let future_shards := shards.2
              let q :=
                if m.validation_status.allows_validate then
                  startSessions m env extra new_shards keyblock_seqno opts_hash
                    catchain_config gc
                else (m, gc, [])
              let m := q.1
              let gc := q.2.1
              let started := q.2.2
              let fq := future_shards.foldl
                (futureSessionStep env extra mc_now catchain_config keyblock_seqno opts_hash)
                (m, gc)
              let m := fq.1
              let gc := fq.2
              let e :=
                if rotate_all_shards extra then
                  { e with last_rotation_block := some env.last_mc_block }
                else e
              let sr := stopAndRemoveSessions m e gc
              let gl := garbageCollectLists sr.1 sr.2
              ⟨gl.1, gl.2, started, none⟩

/-- C8: session-id serialization succeeds exactly when `new_catchain_ids` is
true; the legacy (`false`) path produces no result and the derived session id
is then absent (the source panics on `unimplemented!`); with the flag true
the serialization is the canonical boxed `GroupNew` encoding and the session
id is its digest (SHA-256 in the source). -/
theorem get_validator_set_id_spec (shard : ShardIdent) (vset : VSet) (opts_hash : Nat)
    (key_seqno : Int) (nci : Bool) (mvs : Int) :
    ((∃ v, get_validator_set_id_serialize shard vset opts_hash key_seqno nci mvs = .ok v) ↔
      nci = true) ∧
    (nci = false →
      get_validator_set_id shard vset opts_hash key_seqno nci mvs = none) ∧
    (nci = true →
      get_validator_set_id_serialize shard vset opts_hash key_seqno nci mvs =
        .ok (encodeGroupNew shard.wc (i64wrap shard.prefixWithTag) mvs key_seqno
          (vset.catchain_seqno : Int) opts_hash
          (vset.list.map (fun d => (d.node_id_short, d.adnl_addr.getD d.node_id_short, d.weight)))) ∧
      get_validator_set_id shard vset opts_hash key_seqno nci mvs =
        some (calcFileHash (encodeGroupNew shard.wc (i64wrap shard.prefixWithTag) mvs key_seqno
          (vset.catchain_seqno : Int) opts_hash
          (vset.list.map (fun d => (d.node_id_short, d.adnl_addr.getD d.node_id_short, d.weight)))))) := by
  cases nci with
  | false =>
    refine ⟨?_, ?_, ?_⟩
    · simp [get_validator_set_id_serialize]
    · intro _
      rfl
    · intro h
      simp at h
  | true =>
    refine ⟨?_, ?_, ?_⟩
    · simp [get_validator_set_id_serialize]
    · intro h
      simp at h
    · intro _
      exact ⟨rfl, rfl⟩

/-- Witness for C8 at concrete inputs: the legacy path yields no id, the new
path yields the digest of the `GroupNew` encoding. -/
theorem get_validator_set_id_spec_witness :
    (get_validator_set_id ShardIdent.masterchain ⟨3, [⟨9, none, 4⟩]⟩ 17 2 false 0 = none) ∧
    (get_validator_set_id ShardIdent.masterchain ⟨3, [⟨9, none, 4⟩]⟩ 17 2 true 0 =
      some (calcFileHash (encodeGroupNew ShardIdent.masterchain.wc
        (i64wrap ShardIdent.masterchain.prefixWithTag) 0 2 3 17 [(9, 9, 4)]))) :=
  ⟨(get_validator_set_id_spec ShardIdent.masterchain ⟨3, [⟨9, none, 4⟩]⟩ 17 2 false 0).2.1 rfl,
   ((get_validator_set_id_spec ShardIdent.masterchain ⟨3, [⟨9, none, 4⟩]⟩ 17 2 true 0).2.2 rfl).2⟩

/-! ### Association-map lemmas used by the manager proofs -/

theorem alistLookup_insert_ne {κ α : Type} [DecidableEq κ] (m : List (κ × α))
    (k k' : κ) (v : α) (h : k ≠ k') :
    alistLookup (alistInsert m k' v) k = alistLookup m k := by
  induction m with
  | nil => simp [alistInsert, alistLookup, h]
  | cons e rest ih =>
    obtain ⟨k1, v1⟩ := e
    by_cases h1 : k' = k1
    · have hk1 : k ≠ k1 := h1 ▸ h
      simp [alistInsert, alistLookup, h1, h, hk1]
    · by_cases h2 : k = k1
      · simp [alistInsert, alistLookup, h1, h2]
      · simp [alistInsert, alistLookup, h1, h2, ih]

theorem alistLookup_remove_ne {κ α : Type} [DecidableEq κ] (m : List (κ × α))
    (k k' : κ) (h : k ≠ k') :
    alistLookup (alistRemove m k') k = alistLookup m k := by
  induction m with
  | nil => simp [alistRemove, alistLookup]
  | cons e rest ih =>
    obtain ⟨k1, v1⟩ := e
    by_cases h1 : k' = k1
    · have hk1 : k ≠ k1 := h1 ▸ h
      simp [alistRemove, alistLookup, h1, hk1]
    · by_cases h2 : k = k1
      · simp [alistRemove, alistLookup, h1, h2]
      · simp [alistRemove, alistLookup, h1, h2, ih]

theorem alistLookup_eq_none_of_not_mem {κ α : Type} [DecidableEq κ]
    (m : List (κ × α)) (k : κ) (h : k ∉ alistKeys m) : alistLookup m k = none := by
  induction m with
  | nil => rfl
  | cons e rest ih =>
    obtain ⟨k1, v1⟩ := e
    simp only [alistKeys, List.map_cons, List.mem_cons, not_or] at h
    simp [alistLookup, h.1, ih (by simpa [alistKeys] using h.2)]

theorem mem_alistKeys_of_lookup {κ α : Type} [DecidableEq κ] (m : List (κ × α))
    (k : κ) (v : α) (h : alistLookup m k = some v) : k ∈ alistKeys m := by
  induction m with
  | nil => simp [alistLookup] at h
  | cons e rest ih =>
    obtain ⟨k1, v1⟩ := e
    by_cases h1 : k = k1
    · simp [alistKeys, h1]
    · simp only [alistLookup, if_neg h1] at h
      have hh := ih h
      simp only [alistKeys] at hh
      simp [alistKeys, hh]

theorem alistRemove_sublist {κ α : Type} [DecidableEq κ] (m : List (κ × α)) (k : κ) :
    List.Sublist (alistRemove m k) m := by
  induction m with
  | nil => simp [alistRemove]
  | cons e rest ih =>
    obtain ⟨k1, v1⟩ := e
    by_cases h1 : k = k1
    · simp only [alistRemove, if_pos h1]
      exact List.sublist_cons_self (k1, v1) rest
    · simp only [alistRemove, if_neg h1]
      exact List.Sublist.cons₂ (k1, v1) ih

theorem alistKeys_remove_nodup {κ α : Type} [DecidableEq κ] (m : List (κ × α))
    (k : κ) (h : (alistKeys m).Nodup) : (alistKeys (alistRemove m k)).Nodup :=
  List.Nodup.sublist (List.Sublist.map Prod.fst (alistRemove_sublist m k)) h

theorem alistKeys_insert_of_lookup {κ α : Type} [DecidableEq κ] (m : List (κ × α))
    (k : κ) (v v' : α) (h : alistLookup m k = some v) :
    alistKeys (alistInsert m k v') = alistKeys m := by
  induction m with
  | nil => simp [alistLookup] at h
  | cons e rest ih =>
    obtain ⟨k1, v1⟩ := e
    by_cases h1 : k = k1
    · simp [alistInsert, alistKeys, h1]
    · simp only [alistLookup, if_neg h1] at h
      have hh := ih h
      simp only [alistKeys] at hh
      simp [alistInsert, alistKeys, h1, hh]

theorem alistLookup_remove_self {κ α : Type} [DecidableEq κ] (m : List (κ × α))
    (k : κ) (h : (alistKeys m).Nodup) : alistLookup (alistRemove m k) k = none := by
  induction m with
  | nil => rfl
  | cons e rest ih =>
    obtain ⟨k1, v1⟩ := e
    simp only [alistKeys, List.map_cons, List.nodup_cons] at h
    by_cases h1 : k = k1
    · subst h1
      simpa [alistRemove] using alistLookup_eq_none_of_not_mem rest k h.1
    · simp [alistRemove, alistLookup, h1, ih h.2]

/-! ### Frame and preservation lemmas for the `update_shards` phases -/

theorem updateSingleList_frame (m : ManagerState) (e : EngineState) (env : Env)
    (lid : Option Nat) :
    ((updateSingleList m e env lid).2.1).validation_status = m.validation_status ∧
    ((updateSingleList m e env lid).2.1).validator_sessions = m.validator_sessions ∧
    ((updateSingleList m e env lid).2.1).curr = m.curr ∧
    ((updateSingleList m e env lid).2.1).next = m.next := by
  cases lid with
  | none => exact ⟨rfl, rfl, rfl, rfl⟩
  | some l =>
    by_cases h : (alistLookup m.known_lists l).isSome
    · simp [updateSingleList, h]
    · cases hk : env.engine_keys l <;> simp [updateSingleList, h, hk]

theorem updateValidatorLists_frame (m : ManagerState) (e : EngineState) (env : Env) :
    ((updateValidatorLists m e env).2.1).validation_status = m.validation_status ∧
    ((updateValidatorLists m e env).2.1).validator_sessions = m.validator_sessions := by
  cases hc : env.custom with
  | none => simp [updateValidatorLists, hc]
  | some extra =>
    have h1 := updateSingleList_frame m e env extra.curr_list_id
    simp only [updateValidatorLists, hc]
    cases hr1 : (updateSingleList m e env extra.curr_list_id).1 with
    | none =>
      have h2 := updateSingleList_frame
        { (updateSingleList m e env extra.curr_list_id).2.1 with curr := none }
        ((updateSingleList m e env extra.curr_list_id).2.2) env extra.next_list_id
      simp only [hr1]
      exact ⟨h2.1.trans h1.1, h2.2.1.trans h1.2.1⟩
    | some id =>
      have h2 := updateSingleList_frame
        { (updateSingleList m e env extra.curr_list_id).2.1 with curr := some id }
        { (updateSingleList m e env extra.curr_list_id).2.2 with active_list := some id }
        env extra.next_list_id
      simp only [hr1]
      exact ⟨h2.1.trans h1.1, h2.2.1.trans h1.2.1⟩

theorem stopRemoveStep_status (p : ManagerState × EngineState) (id : Nat) :
    ((stopRemoveStep p id).1).validation_status = p.1.validation_status := by
  cases h : alistLookup p.1.validator_sessions id with
  | none => simp [stopRemoveStep, h]
  | some g => cases hs : g.status <;> simp [stopRemoveStep, h, hs]

theorem stopLoop_status (ids : List Nat) (p : ManagerState × EngineState) :
    ((ids.foldl stopRemoveStep p).1).validation_status = p.1.validation_status := by
  induction ids generalizing p with
  | nil => rfl
  | cons x xs ih =>
    simp only [List.foldl_cons]
    rw [ih, stopRemoveStep_status]

theorem startSessionsStep_status (env : Env) (extra : McExtra) (vlid : Nat)
    (gss : VGStatus) (kbs oh : Nat) (st : ManagerState × List Nat × List Nat)
    (p : ShardIdent × List BlockIdExt) :
    ((startSessionsStep env extra vlid gss kbs oh st p).1).validation_status =
      st.1.validation_status := by
  simp only [startSessionsStep]
  split
  · rfl
  · split
    · split <;> rfl
    · rfl

theorem startSessions_status (m : ManagerState) (env : Env) (extra : McExtra)
    (ns : NewShards) (kbs oh : Nat) (cc : CatchainConfig) (gc : List Nat) :
    ((startSessions m env extra ns kbs oh cc gc).1).validation_status =
      m.validation_status := by
  cases hc : m.curr with
  | none => simp [startSessions, hc]
  | some vlid =>
    simp only [startSessions, hc]
    suffices h : ∀ (st : ManagerState × List Nat × List Nat),
        ((ns.foldl (startSessionsStep env extra vlid
          (if m.validation_status = .Countdown then .Countdown else .Active) kbs oh) st).1).validation_status =
          st.1.validation_status by
      exact h (m, gc, [])
    induction ns with
    | nil => intro st; rfl
    | cons x xs ih =>
      intro st
      simp only [List.foldl_cons]
      rw [ih, startSessionsStep_status]

theorem futureSessionStep_status (env : Env) (extra : McExtra) (mc_now : Nat)
    (cc : CatchainConfig) (kbs oh : Nat) (st : ManagerState × List Nat)
    (ident : ShardIdent) :
    ((futureSessionStep env extra mc_now cc kbs oh st ident).1).validation_status =
      st.1.validation_status := by
  simp only [futureSessionStep]
  repeat' split
  all_goals rfl

theorem futureLoop_status (env : Env) (extra : McExtra) (mc_now : Nat)
    (cc : CatchainConfig) (kbs oh : Nat) (fs : List ShardIdent)
    (st : ManagerState × List Nat) :
    ((fs.foldl (futureSessionStep env extra mc_now cc kbs oh) st).1).validation_status =
      st.1.validation_status := by
  induction fs generalizing st with
  | nil => rfl
  | cons x xs ih =>
    simp only [List.foldl_cons]
    rw [ih, futureSessionStep_status]

theorem gcListsStep_status (p : ManagerState × EngineState) (id : Nat) :
    ((gcListsStep p id).1).validation_status = p.1.validation_status := by
  by_cases h : p.1.actual_or_coming id <;> simp [gcListsStep, h]

theorem gcListsStep_sessions (p : ManagerState × EngineState) (id : Nat) :
    ((gcListsStep p id).1).validator_sessions = p.1.validator_sessions := by
  by_cases h : p.1.actual_or_coming id <;> simp [gcListsStep, h]

theorem gcLoop_status (ids : List Nat) (p : ManagerState × EngineState) :
    ((ids.foldl gcListsStep p).1).validation_status = p.1.validation_status ∧
    ((ids.foldl gcListsStep p).1).validator_sessions = p.1.validator_sessions := by
  induction ids generalizing p with
  | nil => exact ⟨rfl, rfl⟩
  | cons x xs ih =>
    simp only [List.foldl_cons]
    exact ⟨((ih _).1).trans (gcListsStep_status p x),
      ((ih _).2).trans (gcListsStep_sessions p x)⟩

theorem garbageCollectLists_status (m : ManagerState) (e : EngineState) :
    ((garbageCollectLists m e).1).validation_status = m.validation_status ∧
    ((garbageCollectLists m e).1).validator_sessions = m.validator_sessions :=
  gcLoop_status _ (m, e)

theorem rank_le_maxStatus (a b : ValidationStatus) :
    a.rank ≤ (a.maxStatus b).rank := by
  by_cases h : a.rank ≤ b.rank <;> simp [ValidationStatus.maxStatus, h]

theorem updateValidationStatus_mono (m : ManagerState) (env : Env) (extra : McExtra) :
    m.validation_status.rank ≤
      (updateValidationStatus m env extra).validation_status.rank := by
  cases h : m.validation_status with
  | Waiting =>
    simp only [updateValidationStatus, h]
    split
    · simp [ValidationStatus.rank]
    · simp [h]
  | Countdown =>
    simp only [updateValidationStatus, h]
    split
    · simp [ValidationStatus.rank]
    · simp [h]
  | Disabled => simp [updateValidationStatus, h]
  | Active => simp [updateValidationStatus, h]

theorem disableValidation_status (m : ManagerState) (e : EngineState) :
    ((disableValidation m e).1).validation_status = .Disabled := by
  simp only [disableValidation, stopAndRemoveSessions]
  rw [stopLoop_status]

theorem enable_update_mono (m : ManagerState) (e : EngineState) (env : Env)
    (extra : McExtra) :
    m.validation_status.rank ≤
      (updateValidationStatus (enableValidation m e).1 env extra).validation_status.rank := by
  have h1 : ((enableValidation m e).1).validation_status =
      m.validation_status.maxStatus .Waiting := rfl
  have h2 := updateValidationStatus_mono (enableValidation m e).1 env extra
  rw [h1] at h2
  exact le_trans (rank_le_maxStatus _ _) h2

/-- C6: across one iteration of the manager's control loop (one
`update_shards` call — the only writer of the status), `validation_status`
never decreases in the order `Disabled < Waiting < Countdown < Active`,
except for the single reset to `Disabled` taken exactly when the
validator-list refresh yields a local key for neither the current nor the
next validator list. -/
theorem validation_status_monotone (m : ManagerState) (e : EngineState) (env : Env) :
    ((updateValidatorLists m e env).1 = true →
      m.validation_status.rank ≤ ((updateShards m e env).mgr).validation_status.rank) ∧
    ((updateValidatorLists m e env).1 = false →
      ((updateShards m e env).mgr).validation_status = .Disabled) := by
  have hframe := updateValidatorLists_frame m e env
  constructor
  · intro hok
    simp only [updateShards, hok, Bool.true_eq_false, if_false]
    cases hc : env.custom with
    | none =>
      simp only [hc]
      rw [hframe.1]
    | some extra =>
      simp only [hc]
      cases hkb : (if extra.after_key_block then some env.last_mc_block.seq_no
          else extra.last_key_block_seqno) with
      | none =>
        simp only []
        rw [hframe.1]
      | some keyblock_seqno =>
        simp only []
        cases hcc : extra.consensus_config with
        | none =>
          simp only []
          rw [hframe.1]
        | some consensus_config =>
          simp only []
          cases hcat : extra.catchain_config with
          | none =>
            simp only []
            rw [hframe.1]
          | some catchain_config =>
            simp only []
            cases hcs : collectShards env extra with
            | error msg =>
              simp only []
              rw [← hframe.1]
              exact enable_update_mono _ _ env extra
            | ok shards =>
              simp only []
              rw [(garbageCollectLists_status _ _).1]
              simp only [stopAndRemoveSessions]
              rw [stopLoop_status, futureLoop_status]
              split
              · rw [startSessions_status, ← hframe.1]
                exact enable_update_mono _ _ env extra
              · rw [← hframe.1]
                exact enable_update_mono _ _ env extra
  · intro hlost
    simp only [updateShards, hlost, if_pos]
    exact disableValidation_status _ _

theorem stopRemoveStep_lookup_ne (p : ManagerState × EngineState) (x id : Nat)
    (h : id ≠ x) :
    alistLookup ((stopRemoveStep p x).1).validator_sessions id =
      alistLookup p.1.validator_sessions id := by
  cases hl : alistLookup p.1.validator_sessions x with
  | none => simp [stopRemoveStep, hl]
  | some g =>
    cases hs : g.status <;>
      simp [stopRemoveStep, hl, hs, alistLookup_insert_ne _ _ _ _ h,
        alistLookup_remove_ne _ _ _ h]

theorem stopRemoveStep_keys_nodup (p : ManagerState × EngineState) (x : Nat)
    (h : (alistKeys p.1.validator_sessions).Nodup) :
    (alistKeys ((stopRemoveStep p x).1).validator_sessions).Nodup := by
  cases hl : alistLookup p.1.validator_sessions x with
  | none => simpa [stopRemoveStep, hl] using h
  | some g =>
    cases hs : g.status <;>
      simp [stopRemoveStep, hl, hs, alistKeys_remove_nodup _ _ h,
        alistKeys_insert_of_lookup _ _ _ _ hl, h]

theorem stopLoop_frame (ids : List Nat) (p : ManagerState × EngineState) (id : Nat)
    (h : id ∉ ids) :
    alistLookup ((ids.foldl stopRemoveStep p).1).validator_sessions id =
      alistLookup p.1.validator_sessions id := by
  induction ids generalizing p with
  | nil => rfl
  | cons x xs ih =>
    simp only [List.mem_cons, not_or] at h
    simp only [List.foldl_cons]
    rw [ih _ h.2, stopRemoveStep_lookup_ne _ _ _ h.1]

/-- Per-id outcome of `stop_and_remove_sessions` over a duplicate-free id
set: an entry already `Stopped` is removed, any other entry remains with
status `Stopping`. -/
theorem stopLoop_lookup_spec (ids : List Nat) (p : ManagerState × EngineState)
    (id : Nat) (g : ValidatorGroup) (hids : ids.Nodup)
    (hkeys : (alistKeys p.1.validator_sessions).Nodup) (hmem : id ∈ ids)
    (hlook : alistLookup p.1.validator_sessions id = some g) :
    alistLookup ((ids.foldl stopRemoveStep p).1).validator_sessions id =
      (if g.status = .Stopped then none else some { g with status := .Stopping }) := by
  induction ids generalizing p with
  | nil => cases hmem
  | cons x xs ih =>
    simp only [List.nodup_cons] at hids
    by_cases hx : id = x
    · subst hx
      simp only [List.foldl_cons]
      cases hs : g.status with
      | Stopped =>
        have h1 : alistLookup ((stopRemoveStep p id).1).validator_sessions id = none := by
          simp [stopRemoveStep, hlook, hs, alistLookup_remove_self _ _ hkeys]
        rw [stopLoop_frame xs _ id hids.1, h1]
        simp
      | Stopping =>
        have h1 : alistLookup ((stopRemoveStep p id).1).validator_sessions id = some g := by
          simp [stopRemoveStep, hlook, hs]
        rw [stopLoop_frame xs _ id hids.1, h1]
        have hgg : ({ g with status := VGStatus.Stopping } : ValidatorGroup) = g := by
          rw [← hs]
        simp [hgg]
      | Created =>
        have h1 : alistLookup ((stopRemoveStep p id).1).validator_sessions id =
            some { g with status := .Stopping } := by
          simp [stopRemoveStep, hlook, hs, alistLookup_insert_self]
        rw [stopLoop_frame xs _ id hids.1, h1]
        simp
      | Countdown =>
        have h1 : alistLookup ((stopRemoveStep p id).1).validator_sessions id =
            some { g with status := .Stopping } := by
          simp [stopRemoveStep, hlook, hs, alistLookup_insert_self]
        rw [stopLoop_frame xs _ id hids.1, h1]
        simp
      | Active =>
        have h1 : alistLookup ((stopRemoveStep p id).1).validator_sessions id =
            some { g with status := .Stopping } := by
          simp [stopRemoveStep, hlook, hs, alistLookup_insert_self]
        rw [stopLoop_frame xs _ id hids.1, h1]
        simp
    · have hmem' : id ∈ xs := by
        rcases List.mem_cons.mp hmem with h | h
        · exact absurd h hx
        · exact h
      simp only [List.foldl_cons]
      exact ih _ hids.2 (stopRemoveStep_keys_nodup p x hkeys) hmem'
        ((stopRemoveStep_lookup_ne p x id hx).trans hlook)

/-- Whether one side (current or next) of the validator-list refresh yields a
local key for this node: the list id is computable and either already known
to the status, or the engine returns a local key for it. -/
def yieldsLocalKey (m : ManagerState) (env : Env) (list_id : Option Nat) : Bool :=
  match list_id with
  | none => false
  | some l => (alistLookup m.known_lists l).isSome || (env.engine_keys l).isSome

theorem updateSingleList_of_not_yields (m : ManagerState) (e : EngineState) (env : Env)
    (lid : Option Nat) (h : yieldsLocalKey m env lid = false) :
    (updateSingleList m e env lid).1 = none ∧ (updateSingleList m e env lid).2.1 = m := by
  cases lid with
  | none => exact ⟨rfl, rfl⟩
  | some l =>
    simp only [yieldsLocalKey, Bool.or_eq_false_iff] at h
    cases hk : env.engine_keys l with
    | some key =>
      rw [hk] at h
      simp at h
    | none => simp [updateSingleList, h.1, hk]

theorem updateValidatorLists_false (m : ManagerState) (e : EngineState) (env : Env)
    (h : ∀ extra, env.custom = some extra →
      yieldsLocalKey m env extra.curr_list_id = false ∧
      yieldsLocalKey m env extra.next_list_id = false) :
    (updateValidatorLists m e env).1 = false := by
  cases hc : env.custom with
  | none => simp [updateValidatorLists, hc]
  | some extra =>
    obtain ⟨h1, h2⟩ := h extra hc
    have u1 := updateSingleList_of_not_yields m e env extra.curr_list_id h1
    simp only [updateValidatorLists, hc, u1.1, u1.2]
    have h2' : yieldsLocalKey { m with curr := (none : Option Nat) } env
        extra.next_list_id = false := h2
    have u2 := updateSingleList_of_not_yields { m with curr := none }
      ((updateSingleList m e env extra.curr_list_id).2.2) env extra.next_list_id h2'
    simp [u2.1, u2.2]

/-- C5 (amended): when neither the current nor the next validator set yields
a local key, `update_shards` transitions `validation_status` to `Disabled`,
requests stop of every running session (leaving it indexed with status
`Stopping`) and removes the already-`Stopped` ones from the index, sets the
engine's `will_validate` flag to false, clears the persisted last-rotation
pointer, and returns without starting any session. -/
theorem update_shards_disable_spec (m : ManagerState) (e : EngineState) (env : Env)
    (hlost : ∀ extra, env.custom = some extra →
      yieldsLocalKey m env extra.curr_list_id = false ∧
      yieldsLocalKey m env extra.next_list_id = false)
    (hnd : (alistKeys m.validator_sessions).Nodup) :
    ((updateShards m e env).mgr).validation_status = .Disabled ∧
    ((updateShards m e env).eng).will_validate = false ∧
    ((updateShards m e env).eng).last_rotation_block = none ∧
    (updateShards m e env).started = [] ∧
    (∀ id g, alistLookup m.validator_sessions id = some g →
      alistLookup ((updateShards m e env).mgr).validator_sessions id =
        (if g.status = .Stopped then none else some { g with status := .Stopping })) := by
  have hfalse := updateValidatorLists_false m e env hlost
  have hframe := updateValidatorLists_frame m e env
  simp only [updateShards, hfalse, if_pos]
  refine ⟨disableValidation_status _ _, by trivial, by trivial, by trivial, ?_⟩
  intro id g hg
  have hs2 : ((updateValidatorLists m e env).2.1).validator_sessions =
      m.validator_sessions := hframe.2
  simp only [disableValidation, stopAndRemoveSessions]
  refine stopLoop_lookup_spec _ _ id g ?_ ?_ ?_ ?_
  · simpa [alistKeys, hs2] using hnd
  · simpa [hs2] using hnd
  · simpa [alistKeys, hs2] using mem_alistKeys_of_lookup _ _ _ hg
  · simpa [hs2] using hg

/-- Concrete masterchain extra state for the membership-loss scenario: the
current validator list has a computable id (7) but this node holds no key
for it, and there is no next list. -/
def extraLost : McExtra :=
  { curr_list_id := some 7
    next_list_id := none
    nx_cc_updated := false
    after_key_block := false
    last_key_block_seqno := none
    consensus_config := none
    catchain_config := none
    cc_seqno := 0
    shards := []
    next_vset_total := 0
    next_vset_utime_since := 0 }

/-- Concrete environment for the membership-loss scenario: the engine knows
no local key for any list. -/
def envLost : Env :=
  { custom := some extraLost
    last_mc_block := default
    gen_time := 0
    engine_keys := fun _ => none
    check_sync := true
    last_fork_seqno := 0
    processed_master := true
    processed_wc := -1
    cur_time := 0
    subset := fun _ _ _ => []
    shard_cc_seqno := fun _ => 0 }

/-- A manager owning one running (`Active`) session under id 5. -/
def mgrOneActive : ManagerState :=
  { validator_sessions := [(5, ⟨ShardIdent.masterchain, 1, .Active⟩)]
    known_lists := []
    curr := none
    next := none
    validation_status := .Active }

/-- An engine state with `will_validate` set and a stored rotation block. -/
def engRunning : EngineState :=
  { will_validate := true
    last_rotation_block := some default
    validation_status_map := []
    collation_status_map := []
    validator_lists := []
    active_list := none }

/-- Counterexample to C5 as stated: on loss of membership `update_shards`
does take the disable path (status becomes `Disabled`), but the running
session under id 5 is NOT removed from the session index — it stays indexed
with status `Stopping`; only already-`Stopped` sessions are removed. -/
theorem update_shards_disable_counterexample :
    ((updateShards mgrOneActive engRunning envLost).mgr).validation_status = .Disabled ∧
    alistLookup ((updateShards mgrOneActive engRunning envLost).mgr).validator_sessions 5 =
      some ⟨ShardIdent.masterchain, 1, .Stopping⟩ ∧
    ((updateShards mgrOneActive engRunning envLost).mgr).validator_sessions ≠ [] := by
  exact ⟨rfl, rfl, by decide⟩

/-- Witness for the amended C5 at the concrete membership-loss scenario. -/
theorem update_shards_disable_spec_witness :
    (∀ extra, envLost.custom = some extra →
      yieldsLocalKey mgrOneActive envLost extra.curr_list_id = false ∧
      yieldsLocalKey mgrOneActive envLost extra.next_list_id = false) ∧
    (alistKeys mgrOneActive.validator_sessions).Nodup ∧
    ((updateShards mgrOneActive engRunning envLost).mgr).validation_status = .Disabled ∧
    ((updateShards mgrOneActive engRunning envLost).eng).will_validate = false ∧
    ((updateShards mgrOneActive engRunning envLost).eng).last_rotation_block = none ∧
    (updateShards mgrOneActive engRunning envLost).started = [] ∧
    (∀ id g, alistLookup mgrOneActive.validator_sessions id = some g →
      alistLookup ((updateShards mgrOneActive engRunning envLost).mgr).validator_sessions id =
        (if g.status = .Stopped then none else some { g with status := .Stopping })) := by
  have hhyp : ∀ extra, envLost.custom = some extra →
      yieldsLocalKey mgrOneActive envLost extra.curr_list_id = false ∧
      yieldsLocalKey mgrOneActive envLost extra.next_list_id = false := by
    intro extra hx
    obtain rfl := Option.some.inj hx.symm
    exact ⟨rfl, rfl⟩
  have hnd : (alistKeys mgrOneActive.validator_sessions).Nodup := by decide
  have hmain := update_shards_disable_spec mgrOneActive engRunning envLost hhyp hnd
  exact ⟨hhyp, hnd, hmain.1, hmain.2.1, hmain.2.2.1, hmain.2.2.2.1, hmain.2.2.2.2⟩

/-- Concrete masterchain extra state in which this node does hold a key for
the current validator list (id 7). -/
def extraMember : McExtra :=
  { curr_list_id := some 7
    next_list_id := none
    nx_cc_updated := true
    after_key_block := true
    last_key_block_seqno := none
    consensus_config := some ⟨1000, 4, 3, 2000, 8, 4, 1048576, 1048576, true⟩
    catchain_config := some ⟨250, 250⟩
    cc_seqno := 0
    shards := []
    next_vset_total := 0
    next_vset_utime_since := 0 }

/-- Concrete environment in which the engine returns local key 9 for
validator list 7. -/
def envMember : Env :=
  { custom := some extraMember
    last_mc_block := default
    gen_time := 0
    engine_keys := fun l => if l = 7 then some 9 else none
    check_sync := true
    last_fork_seqno := 0
    processed_master := true
    processed_wc := -1
    cur_time := 0
    subset := fun _ _ _ => []
    shard_cc_seqno := fun _ => 0 }

/-- A manager in `Waiting` with no sessions. -/
def mgrWaiting : ManagerState :=
  { validator_sessions := []
    known_lists := []
    curr := none
    next := none
    validation_status := .Waiting }

/-- Witness for C6 at a concrete input where membership holds: the status
does not decrease across the call. -/
theorem validation_status_monotone_witness :
    (updateValidatorLists mgrWaiting engRunning envMember).1 = true ∧
    mgrWaiting.validation_status.rank ≤
      ((updateShards mgrWaiting engRunning envMember).mgr).validation_status.rank :=
  ⟨rfl, (validation_status_monotone mgrWaiting engRunning envMember).1 rfl⟩

/-! ### C7: geometry of `future_shards` -/

/-- Whether the first bit path is an initial segment of the second (shard
ancestry within one workchain). -/
def pathStarts (a b : List Bool) : Bool :=
  match a, b with
  | [], _ => true
  | _ :: _, [] => false
  | x :: xs, y :: ys => (x == y) && pathStarts xs ys

theorem pathStarts_append (a t : List Bool) : pathStarts a (a ++ t) = true := by
  induction a with
  | nil => rfl
  | cons x xs ih => simp [pathStarts, ih]

theorem pathStarts_refl (a : List Bool) : pathStarts a a = true := by
  simpa using pathStarts_append a []

theorem pathStarts_dropLast (p : List Bool) (h : p ≠ []) :
    pathStarts p.dropLast p = true := by
  have h2 := pathStarts_append p.dropLast [p.getLast h]
  rwa [List.dropLast_append_getLast h] at h2

/-- The shard idents one descriptor contributes to `future_shards`. -/
def futureContrib (cur_time : Nat) (ident : ShardIdent) (descr : ShardDescr) :
    List ShardIdent :=
  match descr.split_merge_at with
  | .fsmNone => [ident]
  | .fsmSplit t _ =>
    if t < cur_time + 60 then
      match ident.split with
      | .ok lr => [lr.1, lr.2]
      | .error _ => []
    else [ident]
  | .fsmMerge t _ =>
    if t < cur_time + 60 then
      match ident.merge with
      | .ok p => [p]
      | .error _ => []
    else [ident]

/-- Insert several shard idents into the set. -/
def insertAll (xs : List ShardIdent) (s : List ShardIdent) : List ShardIdent :=
  xs.foldl (fun s x => insertNew x s) s

theorem mem_insertNew (x y : ShardIdent) (s : List ShardIdent) :
    x ∈ insertNew y s ↔ x ∈ s ∨ x = y := by
  by_cases h : y ∈ s
  · simp only [insertNew, if_pos h]
    exact ⟨Or.inl, fun hx => hx.elim id (fun e => e ▸ h)⟩
  · simp [insertNew, h]

theorem mem_insertAll (x : ShardIdent) (xs s : List ShardIdent) :
    x ∈ insertAll xs s ↔ x ∈ s ∨ x ∈ xs := by
  induction xs generalizing s with
  | nil => simp [insertAll]
  | cons y ys ih =>
    show x ∈ insertAll ys (insertNew y s) ↔ _
    rw [ih, mem_insertNew]
    simp only [List.mem_cons]
    tauto

theorem split_shape (s : ShardIdent) (lr : ShardIdent × ShardIdent)
    (h : s.split = .ok lr) :
    lr.1 = ⟨s.wc, s.path ++ [false]⟩ ∧ lr.2 = ⟨s.wc, s.path ++ [true]⟩ := by
  by_cases hd : maxSplitDepth ≤ s.path.length
  · simp [ShardIdent.split, hd] at h
  · simp only [ShardIdent.split, if_neg hd, Except.ok.injEq] at h
    exact ⟨congrArg Prod.fst h.symm, congrArg Prod.snd h.symm⟩

theorem split_ok_of_lt (s : ShardIdent) (h : s.path.length < maxSplitDepth) :
    s.split = .ok (⟨s.wc, s.path ++ [false]⟩, ⟨s.wc, s.path ++ [true]⟩) := by
  simp [ShardIdent.split, Nat.not_le.mpr h]

theorem merge_shape (s : ShardIdent) (p : ShardIdent) (h : s.merge = .ok p) :
    s.path ≠ [] ∧ p = ⟨s.wc, s.path.dropLast⟩ := by
  by_cases hn : s.path = []
  · simp [ShardIdent.merge, hn] at h
  · simp only [ShardIdent.merge, if_neg hn, Except.ok.injEq] at h
    exact ⟨hn, h.symm⟩

theorem futurePart_eq (cur_time : Nat) (ident : ShardIdent) (descr : ShardDescr)
    (fs : List ShardIdent) :
    futurePart cur_time ident descr fs =
      insertAll (futureContrib cur_time ident descr) fs := by
  cases hsm : descr.split_merge_at with
  | fsmNone => simp [futurePart, futureContrib, insertAll, hsm]
  | fsmSplit t iv =>
    by_cases ht : t < cur_time + 60
    · cases hsp : ident.split with
      | ok lr =>
        obtain ⟨lr1, lr2⟩ := lr
        simp [futurePart, futureContrib, insertAll, hsm, ht, hsp]
      | error e => simp [futurePart, futureContrib, insertAll, hsm, ht, hsp]
    · simp [futurePart, futureContrib, insertAll, hsm, ht]
  | fsmMerge t iv =>
    by_cases ht : t < cur_time + 60
    · cases hmg : ident.merge with
      | ok p => simp [futurePart, futureContrib, insertAll, hsm, ht, hmg]
      | error e => simp [futurePart, futureContrib, insertAll, hsm, ht, hmg]
    · simp [futurePart, futureContrib, insertAll, hsm, ht]

theorem newShardsPart_ok (ns : NewShards) (ident : ShardIdent) (descr : ShardDescr)
    (hdepth : ident.path.length ≤ maxSplitDepth) :
    ∃ v, newShardsPart ns ident descr = .ok v := by
  by_cases hbs : descr.before_split
  · cases hsp : ident.split with
    | ok lr =>
      obtain ⟨l, r⟩ := lr
      exact ⟨alistInsert (alistInsert ns l [topBlock ident descr]) r [topBlock ident descr],
        by simp [newShardsPart, hbs, hsp]⟩
    | error e => exact ⟨ns, by simp [newShardsPart, hbs, hsp]⟩
  · by_cases hbm : descr.before_merge
    · cases hmg : ident.merge with
      | ok p =>
        obtain ⟨hne, hp⟩ := merge_shape ident p hmg
        have hplen : p.path.length < maxSplitDepth := by
          rw [hp]
          simp only [List.length_dropLast]
          have hpos : 0 < ident.path.length := List.length_pos.mpr hne
          omega
        have hps := split_ok_of_lt p hplen
        exact ⟨alistInsert ns p
            (((alistLookup ns p).getD [default, default]).set
              (if (⟨p.wc, p.path ++ [true]⟩ : ShardIdent) = ident then 1 else 0)
              (topBlock ident descr)),
          by simp [newShardsPart, hbs, hbm, hmg, hps]⟩
      | error e => exact ⟨ns, by simp [newShardsPart, hbs, hbm, hmg]⟩
    · exact ⟨alistInsert ns ident [topBlock ident descr], by simp [newShardsPart, hbs, hbm]⟩

/-- Under the maximum split depth, one descriptor's processing succeeds and
extends `future_shards` by exactly its contribution. -/
theorem processShard_ok (cur_time : Nat) (acc : NewShards × List ShardIdent)
    (ident : ShardIdent) (descr : ShardDescr)
    (hdepth : ident.path.length ≤ maxSplitDepth) :
    ∃ ns, processShard cur_time acc ident descr =
      .ok (ns, insertAll (futureContrib cur_time ident descr) acc.2) := by
  obtain ⟨v, hv⟩ := newShardsPart_ok acc.1 ident descr hdepth
  exact ⟨v, by simp [processShard, hv, futurePart_eq]⟩

/-- Membership in `future_shards` after folding the workchain's shards: an
ident is present iff some processed descriptor contributes it. -/
theorem foldProcess_spec (cur_time : Nat) (l : List (ShardIdent × ShardDescr)) :
    ∀ acc : NewShards × List ShardIdent,
    (∀ p ∈ l, p.1.path.length ≤ maxSplitDepth) →
    ∃ ns fs, l.foldlM (fun acc p => processShard cur_time acc p.1 p.2) acc = .ok (ns, fs) ∧
      ∀ x, (x ∈ fs ↔ x ∈ acc.2 ∨ ∃ p ∈ l, x ∈ futureContrib cur_time p.1 p.2) := by
  induction l with
  | nil =>
    intro acc _
    exact ⟨acc.1, acc.2, rfl, fun x => by simp⟩
  | cons q t ih =>
    intro acc hdepth
    obtain ⟨ns1, hq⟩ := processShard_ok cur_time acc q.1 q.2
      (hdepth q (List.mem_cons_self q t))
    obtain ⟨ns, fs, hfold, hiff⟩ := ih (ns1, insertAll (futureContrib cur_time q.1 q.2) acc.2)
      (fun p hp => hdepth p (List.mem_cons_of_mem q hp))
    refine ⟨ns, fs, ?_, ?_⟩
    · simpa [List.foldlM_cons, hq] using hfold
    · intro x
      rw [hiff x]
      simp only [mem_insertAll, List.mem_cons]
      constructor
      · rintro (⟨h | h⟩ | ⟨p, hp, hc⟩)
        · exact Or.inl h
        · exact Or.inr ⟨q, Or.inl rfl, h⟩
        · exact Or.inr ⟨p, Or.inr hp, hc⟩
      · rintro (h | ⟨p, hp | hp, hc⟩)
        · exact Or.inl (Or.inl h)
        · exact Or.inl (Or.inr (hp ▸ hc))
        · exact Or.inr ⟨p, hp, hc⟩

/-- Membership characterization of `future_shards` for a non-masterchain
workchain. -/
theorem collectShards_spec (env : Env) (extra : McExtra)
    (hmaster : env.processed_master = false)
    (hdepth : ∀ p ∈ shardsForWc env extra, p.1.path.length ≤ maxSplitDepth) :
    ∃ ns fs, collectShards env extra = .ok (ns, fs) ∧
      ∀ x, (x ∈ fs ↔ ∃ p ∈ shardsForWc env extra, x ∈ futureContrib env.cur_time p.1 p.2) := by
  obtain ⟨ns, fs, h1, h2⟩ :=
    foldProcess_spec env.cur_time (shardsForWc env extra) ([], []) hdepth
  refine ⟨ns, fs, ?_, fun x => ?_⟩
  · simpa [collectShards, hmaster] using h1
  · simpa using h2 x

/-- A well-formed shard configuration: pairwise, no ident's path is an
initial segment of another's (so shards cover disjoint prefix ranges and no
ident repeats). -/
def shardsPairwiseFree (l : List (ShardIdent × ShardDescr)) : Prop :=
  l.Pairwise (fun a b =>
    pathStarts a.1.path b.1.path = false ∧ pathStarts b.1.path a.1.path = false)

theorem ident_not_in_other_contrib (cur_time : Nat)
    (l : List (ShardIdent × ShardDescr)) (ident : ShardIdent) (descr : ShardDescr)
    (p : ShardIdent × ShardDescr) (hmem : (ident, descr) ∈ l) (hp : p ∈ l)
    (hwf : shardsPairwiseFree l) (hne : p ≠ (ident, descr)) :
    ident ∉ futureContrib cur_time p.1 p.2 := by
  have hsymm : Symmetric (fun a b : ShardIdent × ShardDescr =>
      pathStarts a.1.path b.1.path = false ∧ pathStarts b.1.path a.1.path = false) :=
    fun a b h => ⟨h.2, h.1⟩
  have hR := List.Pairwise.forall hsymm hwf hp hmem hne
  intro hbad
  have hraw : ident = p.1 → False := by
    intro he
    have := hR.1
    rw [he, pathStarts_refl] at this
    cases this
  cases hsm : p.2.split_merge_at with
  | fsmNone =>
    simp only [futureContrib, hsm] at hbad
    exact hraw (List.mem_singleton.mp hbad)
  | fsmSplit t iv =>
    simp only [futureContrib, hsm] at hbad
    by_cases ht : t < cur_time + 60
    · rw [if_pos ht] at hbad
      cases hsp : p.1.split with
      | ok lr =>
        obtain ⟨hl, hr⟩ := split_shape p.1 lr hsp
        rw [hsp] at hbad
        have hchild : ident = lr.1 ∨ ident = lr.2 := by simpa using hbad
        have hstart : pathStarts p.1.path ident.path = true := by
          rcases hchild with he | he
          · rw [he, hl]
            exact pathStarts_append p.1.path [false]
          · rw [he, hr]
            exact pathStarts_append p.1.path [true]
        rw [hR.1] at hstart
        cases hstart
      | error e =>
        rw [hsp] at hbad
        cases hbad
    · rw [if_neg ht] at hbad
      exact hraw (List.mem_singleton.mp hbad)
  | fsmMerge t iv =>
    simp only [futureContrib, hsm] at hbad
    by_cases ht : t < cur_time + 60
    · rw [if_pos ht] at hbad
      cases hmg : p.1.merge with
      | ok q =>
        obtain ⟨hne', hq⟩ := merge_shape p.1 q hmg
        rw [hmg] at hbad
        have he : ident = q := List.mem_singleton.mp hbad
        have hstart : pathStarts ident.path p.1.path = true := by
          rw [he, hq]
          exact pathStarts_dropLast p.1.path hne'
        rw [hR.2] at hstart
        cases hstart
      | error e =>
        rw [hmg] at hbad
        cases hbad
    · rw [if_neg ht] at hbad
      exact hraw (List.mem_singleton.mp hbad)

/-- C7: for every non-masterchain shard descriptor processed by
`update_shards` over a well-formed shard configuration (pairwise prefix-free
shard idents within the maximum split depth), if a scheduled split (resp.
merge) lies within 60 seconds of the current time then `future_shards`
contains the post-split children (resp. the post-merge parent) and not the
pre-shard; if the scheduled time is 60 or more seconds away, or nothing is
scheduled, `future_shards` contains the pre-shard itself. -/
theorem future_shards_spec (env : Env) (extra : McExtra) (ident : ShardIdent)
    (descr : ShardDescr)
    (hmaster : env.processed_master = false)
    (hmem : (ident, descr) ∈ shardsForWc env extra)
    (hdepth : ∀ p ∈ shardsForWc env extra, p.1.path.length ≤ maxSplitDepth)
    (hwf : shardsPairwiseFree (shardsForWc env extra)) :
    ∃ ns fs, collectShards env extra = .ok (ns, fs) ∧
      (descr.split_merge_at = .fsmNone → ident ∈ fs) ∧
      (∀ t iv, descr.split_merge_at = .fsmSplit t iv → t < env.cur_time + 60 →
        ∀ lr, ident.split = .ok lr → lr.1 ∈ fs ∧ lr.2 ∈ fs ∧ ident ∉ fs) ∧
      (∀ t iv, descr.split_merge_at = .fsmSplit t iv → ¬ t < env.cur_time + 60 →
        ident ∈ fs) ∧
      (∀ t iv, descr.split_merge_at = .fsmMerge t iv → t < env.cur_time + 60 →
        ∀ p, ident.merge = .ok p → p ∈ fs ∧ ident ∉ fs) ∧
      (∀ t iv, descr.split_merge_at = .fsmMerge t iv → ¬ t < env.cur_time + 60 →
        ident ∈ fs) := by
  obtain ⟨ns, fs, hok, hiff⟩ := collectShards_spec env extra hmaster hdepth
  refine ⟨ns, fs, hok, ?_, ?_, ?_, ?_, ?_⟩
  · intro hnone
    exact (hiff ident).mpr ⟨(ident, descr), hmem, by simp [futureContrib, hnone]⟩
  · intro t iv hval ht lr hsp
    have hcon : futureContrib env.cur_time ident descr = [lr.1, lr.2] := by
      simp [futureContrib, hval, ht, hsp]
    refine ⟨(hiff lr.1).mpr ⟨(ident, descr), hmem, by simp [hcon]⟩,
      (hiff lr.2).mpr ⟨(ident, descr), hmem, by simp [hcon]⟩, ?_⟩
    intro hbad
    obtain ⟨p, hp, hc⟩ := (hiff ident).mp hbad
    by_cases hpe : p = (ident, descr)
    · rw [hpe] at hc
      have hc2 : ident ∈ futureContrib env.cur_time ident descr := hc
      rw [hcon] at hc2
      obtain ⟨h1, h2⟩ := split_shape ident lr hsp
      rcases (by simpa using hc2 : ident = lr.1 ∨ ident = lr.2) with he | he
      · rw [h1] at he
        have hlen := congrArg (fun s : ShardIdent => s.path.length) he
        simp only [List.length_append, List.length_singleton] at hlen
        omega
      · rw [h2] at he
        have hlen := congrArg (fun s : ShardIdent => s.path.length) he
        simp only [List.length_append, List.length_singleton] at hlen
        omega
    · exact absurd hc
        (ident_not_in_other_contrib env.cur_time _ ident descr p hmem hp hwf hpe)
  · intro t iv hval ht
    exact (hiff ident).mpr ⟨(ident, descr), hmem, by simp [futureContrib, hval, ht]⟩
  · intro t iv hval ht p hmg
    have hcon : futureContrib env.cur_time ident descr = [p] := by
      simp [futureContrib, hval, ht, hmg]
    refine ⟨(hiff p).mpr ⟨(ident, descr), hmem, by simp [hcon]⟩, ?_⟩
    intro hbad
    obtain ⟨q, hq, hc⟩ := (hiff ident).mp hbad
    by_cases hqe : q = (ident, descr)
    · rw [hqe] at hc
      have hc2 : ident ∈ futureContrib env.cur_time ident descr := hc
      rw [hcon] at hc2
      obtain ⟨hne, hp⟩ := merge_shape ident p hmg
      have he : ident = p := by simpa using hc2
      rw [hp] at he
      have hlen := congrArg (fun s : ShardIdent => s.path.length) he
      simp only [List.length_dropLast] at hlen
      have hpos : 0 < ident.path.length := List.length_pos.mpr hne
      omega
    · exact absurd hc
        (ident_not_in_other_contrib env.cur_time _ ident descr q hmem hq hwf hqe)
  · intro t iv hval ht
    exact (hiff ident).mpr ⟨(ident, descr), hmem, by simp [futureContrib, hval, ht]⟩

/-- Concrete masterchain extra state for the C7 witness: one shard (the full
shard of workchain 0) with a split scheduled 30 seconds from now. -/
def extraC7 : McExtra :=
  { curr_list_id := none
    next_list_id := none
    nx_cc_updated := false
    after_key_block := false
    last_key_block_seqno := none
    consensus_config := none
    catchain_config := none
    cc_seqno := 0
    shards := [(⟨0, []⟩, ⟨1, 0, 0, false, false, .fsmSplit 30 100⟩)]
    next_vset_total := 0
    next_vset_utime_since := 0 }

/-- Concrete environment for the C7 witness: this node processes workchain 0
and the current time is 0. -/
def envC7 : Env :=
  { custom := none
    last_mc_block := default
    gen_time := 0
    engine_keys := fun _ => none
    check_sync := false
    last_fork_seqno := 0
    processed_master := false
    processed_wc := 0
    cur_time := 0
    subset := fun _ _ _ => []
    shard_cc_seqno := fun _ => 0 }

/-- Witness for C7: a split scheduled 30 s ahead puts both children, and not
the parent, into `future_shards`. -/
theorem future_shards_spec_witness :
    envC7.processed_master = false ∧
    ((⟨0, []⟩ : ShardIdent), (⟨1, 0, 0, false, false, .fsmSplit 30 100⟩ : ShardDescr)) ∈
      shardsForWc envC7 extraC7 ∧
    (∀ p ∈ shardsForWc envC7 extraC7, p.1.path.length ≤ maxSplitDepth) ∧
    shardsPairwiseFree (shardsForWc envC7 extraC7) ∧
    (∃ ns fs, collectShards envC7 extraC7 = .ok (ns, fs) ∧
      ((⟨1, 0, 0, false, false, .fsmSplit 30 100⟩ : ShardDescr).split_merge_at = .fsmNone →
        (⟨0, []⟩ : ShardIdent) ∈ fs) ∧
      (∀ t iv, (⟨1, 0, 0, false, false, .fsmSplit 30 100⟩ : ShardDescr).split_merge_at =
          .fsmSplit t iv → t < envC7.cur_time + 60 →
        ∀ lr, (⟨0, []⟩ : ShardIdent).split = .ok lr →
          lr.1 ∈ fs ∧ lr.2 ∈ fs ∧ (⟨0, []⟩ : ShardIdent) ∉ fs) ∧
      (∀ t iv, (⟨1, 0, 0, false, false, .fsmSplit 30 100⟩ : ShardDescr).split_merge_at =
          .fsmSplit t iv → ¬ t < envC7.cur_time + 60 → (⟨0, []⟩ : ShardIdent) ∈ fs) ∧
      (∀ t iv, (⟨1, 0, 0, false, false, .fsmSplit 30 100⟩ : ShardDescr).split_merge_at =
          .fsmMerge t iv → t < envC7.cur_time + 60 →
        ∀ p, (⟨0, []⟩ : ShardIdent).merge = .ok p →
          p ∈ fs ∧ (⟨0, []⟩ : ShardIdent) ∉ fs) ∧
      (∀ t iv, (⟨1, 0, 0, false, false, .fsmSplit 30 100⟩ : ShardDescr).split_merge_at =
          .fsmMerge t iv → ¬ t < envC7.cur_time + 60 → (⟨0, []⟩ : ShardIdent) ∈ fs)) :=
  ⟨rfl, by decide, by decide, by unfold shardsPairwiseFree; decide,
    future_shards_spec envC7 extraC7 ⟨0, []⟩ ⟨1, 0, 0, false, false, .fsmSplit 30 100⟩
      rfl (by decide) (by decide) (by unfold shardsPairwiseFree; decide)⟩

/-! ### Control RPC surface (control.rs) -/

/-- Reinterpret a `Nat` as a signed 32-bit value (Rust `as i32` on an
unsigned integer: truncate to the low 32 bits and read as two's
complement). -/
def i32OfNat (n : Nat) : Int :=
  let m : Nat := n % 2 ^ 32
  if m < 2 ^ 31 then (m : Int) else (m : Int) - 2 ^ 32

/-- Wrap an `Int` into the signed 32-bit range (release-mode `i32`
subtraction wraps). -/
def wrap32 (i : Int) : Int :=
  let m : Int := i % 2 ^ 32
  if m < 2 ^ 31 then m else m - 2 ^ 32

/-- Environment of one `get_stats` call: the last applied masterchain block
(sequence number and generation unix time, when one exists), the current
unix time, and the remaining data the handler copies into the stats. The
two `SystemTime::now()` reads of the handler are collapsed to one instant. -/
structure StatsEnv where
  last_mc_block : Option (Nat × Nat)
  now : Nat
  in_current_vset : Bool
  in_next_vset : Bool
  last_applied_str : String
  processed_master : Bool
  processed_wc : Int
  validation_map : List (String × Nat)
  collation_map : List (String × Nat)

/-- The `shard: <id> - (never | N sec ago)` lines of
`validation_stats`/`collation_stats`. -/
def statLines (ago : Nat) (mp : List (String × Nat)) : String :=
  mp.foldl (fun acc item =>
    acc ++ "shard: " ++ item.1 ++ " - " ++
      (if item.2 = 0 then "never" else toString (ago - item.2) ++ " sec ago") ++ "\n") ""

/-- `ControlQuerySubscriber::get_stats` (control.rs:74-202): the emitted
(key, value) pairs in source order; with no last applied masterchain block
only `masterchainblock: not set` is emitted. `timediff` is the i32
difference of the current unix time and the block's generation time. -/
def get_stats (e : StatsEnv) : List (String × String) :=
  match e.last_mc_block with
  | none => [("masterchainblock", "not set")]
  | some sb =>
    [("masterchainblocktime", toString sb.2),
     ("masterchainblocknumber", toString sb.1),
     ("timediff", toString (wrap32 (i32OfNat e.now - i32OfNat sb.2))),
     ("in_current_vset_p34", if e.in_current_vset then "true" else "false"),
     ("in_next_vset_p36", if e.in_next_vset then "true" else "false"),
     ("last applied masterchain block id", e.last_applied_str),
     ("processed workchain",
       if e.processed_master then "masterchain" else toString e.processed_wc),
     ("validation_stats", statLines e.now e.validation_map),
     ("collation_stats", statLines e.now e.collation_map)]

theorem i32OfNat_small (n : Nat) (h : n < 2 ^ 31) : i32OfNat n = (n : Int) := by
  have h32 : n < 2 ^ 32 := lt_trans h (by norm_num)
  simp only [i32OfNat, Nat.mod_eq_of_lt h32]
  rw [if_pos]
  exact_mod_cast h

theorem wrap32_sub_small (a b : Nat) (ha : a < 2 ^ 31) (hb : b < 2 ^ 31) :
    wrap32 (i32OfNat a - i32OfNat b) = (a : Int) - b := by
  rw [i32OfNat_small a ha, i32OfNat_small b hb]
  have ha' : (a : Int) < 2 ^ 31 := by exact_mod_cast ha
  have hb' : (b : Int) < 2 ^ 31 := by exact_mod_cast hb
  have ha0 : (0 : Int) ≤ (a : Int) := Int.ofNat_nonneg a
  have hb0 : (0 : Int) ≤ (b : Int) := Int.ofNat_nonneg b
  have h32 : (2 : Int) ^ 32 = 4294967296 := by norm_num
  have h31 : (2 : Int) ^ 31 = 2147483648 := by norm_num
  rw [h31] at ha' hb'
  simp only [wrap32, Int.emod_emod_of_dvd, h32, h31]
  split <;> omega

/-- C9: whenever a last applied masterchain block exists (and unix times are
in the i32 range, as they are until 2038), the stats served by the control
handler carry a `timediff` entry equal to the current unix time minus the
block's generation time, as a signed integer — so it may be negative. -/
theorem get_stats_timediff (e : StatsEnv) (seq gen : Nat)
    (hb : e.last_mc_block = some (seq, gen))
    (hn : e.now < 2 ^ 31) (hg : gen < 2 ^ 31) :
    alistLookup (get_stats e) "timediff" =
      some (toString ((e.now : Int) - (gen : Int))) := by
  simp [get_stats, hb, alistLookup, wrap32_sub_small e.now gen hn hg]

/-- Concrete stats environment for the C9 witness: the node's clock is 5
seconds behind the block's generation time. -/
def statsEnvBehind : StatsEnv :=
  { last_mc_block := some (9, 105)
    now := 100
    in_current_vset := false
    in_next_vset := false
    last_applied_str := ""
    processed_master := true
    processed_wc := -1
    validation_map := []
    collation_map := [] }

/-- Witness for C9: a clock behind the block time yields the negative
timediff `-5`. -/
theorem get_stats_timediff_witness :
    statsEnvBehind.last_mc_block = some (9, 105) ∧
    alistLookup (get_stats statsEnvBehind) "timediff" =
      some (toString ((100 : Int) - 105)) :=
  ⟨rfl, get_stats_timediff statsEnvBehind 9 105 rfl (by decide) (by decide)⟩

/-- Node state visible to the control handlers: key ring contents, the
validator key/adnl records held by the node config, and the stored state-GC
interval. -/
structure NodeState where
  generated : List Nat
  next_key : Nat
  validator_keys : List (Nat × Int)
  validator_adnl : List (Nat × Nat)
  gc_interval : Option Nat
deriving DecidableEq, Repr

/-- The decoded control queries dispatched by `try_consume_query`
(control.rs:270-378). -/
inductive ControlQueryReq where
  | generateKeyPair
  | exportPublicKey (key_hash : Nat)
  | sign (key_hash : Nat) (data : List Nat)
  | addValidatorPermanentKey (key_hash : Nat) (election_date : Int) (ttl : Int)
  | addValidatorTempKey (permanent_key_hash : Nat) (key_hash : Nat) (ttl : Int)
  | addValidatorAdnlAddress (permanent_key_hash : Nat) (key_hash : Nat) (ttl : Int)
  | addAdnlId (key_hash : Nat) (category : Int)
  | getBundle (block_id : BlockIdExt)
  | getFutureBundle (prev_block_ids : List BlockIdExt)
  | sendMessage (body : List Nat)
  | getStats
  | setStatesGcInterval (interval_ms : Nat)
deriving DecidableEq, Repr

/-- Replies of the control handlers. -/
inductive Reply where
  | keyHash (h : Nat)
  | publicKey (k : Nat)
  | signature (s : Nat)
  | success
  | stats (s : List (String × String))
deriving DecidableEq, Repr

/-- `ControlQuerySubscriber::try_consume_query` and the handlers it
dispatches to (control.rs:204-378): the reply, the updated node state, and
the log of collaborator operations invoked (key ring, node config, engine).
`add_validator_temp_key` and `add_adnl_address` (control.rs:220-222,
227-229) return `Success` without touching anything. -/
def try_consume_query (s : NodeState) (env : StatsEnv) (q : ControlQueryReq) :
    Except String Reply × NodeState × List String :=
  match q with
  | .generateKeyPair =>
    (.ok (.keyHash s.next_key),
     { s with generated := s.generated ++ [s.next_key], next_key := s.next_key + 1 },
     ["key_ring.generate"])
  | .exportPublicKey key_hash =>
    (.ok (.publicKey key_hash), s, ["key_ring.find"])
  | .sign key_hash data =>
    (.ok (.signature (natsHash (key_hash :: data))), s, ["key_ring.sign_data"])
  | .addValidatorPermanentKey key_hash election_date _ttl =>
    (.ok .success,
     { s with validator_keys := alistInsert s.validator_keys key_hash election_date },
     ["config.add_validator_key"])
  | .addValidatorTempKey _perm _key _ttl =>
    (.ok .success, s, [])
  | .addValidatorAdnlAddress perm key _ttl =>
    (.ok .success,
     { s with validator_adnl := alistInsert s.validator_adnl perm key },
     ["config.add_validator_adnl_key"])
  | .addAdnlId _key _category =>
    (.ok .success, s, [])
  | .getBundle _block_id =>
    (.ok .success, s, ["engine.build_bundle"])
  | .getFutureBundle _prev =>
    (.ok .success, s, ["engine.build_future_bundle"])
  | .sendMessage _body =>
    (.ok .success, s, ["engine.redirect_external_message"])
  | .getStats =>
    (.ok (.stats (get_stats env)), s, ["engine.get_stats"])
  | .setStatesGcInterval interval_ms =>
    (.ok .success, { s with gc_interval := some interval_ms },
     ["engine.adjust_states_gc_interval", "config.store_states_gc_interval"])

/-- C10: dispatching `AddValidatorTempKey` or `AddAdnlId` returns `Success`
while leaving the whole node state unchanged and invoking no key-ring,
config, or engine operation — in contrast to the neighbouring handlers,
which mutate the state and log collaborator calls. -/
theorem temp_key_and_adnl_id_noop (s : NodeState) (env : StatsEnv)
    (perm key : Nat) (ttl : Int) (key2 : Nat) (category : Int) :
    try_consume_query s env (.addValidatorTempKey perm key ttl) = (.ok .success, s, []) ∧
    try_consume_query s env (.addAdnlId key2 category) = (.ok .success, s, []) :=
  ⟨rfl, rfl⟩

end TonNode
